import Mathlib

/-!
# Verification of the IPO PDF field-extraction core (`src/app.py`)

This file is a shallow embedding of the pure extraction logic of
`src/app.py`: the text normalizer `normalize_spaces`, the amount parser
`parse_amount`, the page-scoped matcher (`find_all`, built on a
backtracking regular-expression engine with Python `re` semantics for
the concrete patterns the claims exercise), the single-value candidate
resolver `first_or_na`, the multi-value lead-managers handler, and the
company-name post-processing step.  The theorems at the end of the file
settle the specification claims about these functions.

Strings are modelled as `List Char` internally (`String.data`), with
`String`-level wrappers keeping the source functions' names.
-/

namespace IpoExtract

/-! ## Character classes

Python `re` on `str` uses Unicode classes.  `pyIsSpace` is Python's
`\s` (also the set stripped by `str.strip()`): ASCII whitespace plus
the Unicode whitespace code points. -/

def pyIsSpace (c : Char) : Bool :=
  let n := c.toNat
  (9 ≤ n && n ≤ 13) || n == 32 || (28 ≤ n && n ≤ 31) || n == 0x85 || n == 0xa0 ||
  n == 0x1680 || (0x2000 ≤ n && n ≤ 0x200a) || n == 0x2028 || n == 0x2029 ||
  n == 0x202f || n == 0x205f || n == 0x3000

/-- Python's `\w` word class (letters, digits, underscore; the inputs the
claims exercise contain no word characters beyond these). -/
def pyIsWord (c : Char) : Bool :=
  c.isAlpha || c.isDigit || c == '_'

theorem pyIsSpace_space : pyIsSpace ' ' = true := by decide

theorem isDigit_toNat {c : Char} (h : c.isDigit = true) :
    48 ≤ c.toNat ∧ c.toNat ≤ 57 := by
  simpa only [Char.isDigit, Bool.and_eq_true, decide_eq_true_eq] using h

theorem pyIsSpace_eq_false_of_isDigit {c : Char} (h : c.isDigit = true) :
    pyIsSpace c = false := by
  obtain ⟨h1, h2⟩ := isDigit_toNat h
  simp only [pyIsSpace, Bool.or_eq_false_iff, Bool.and_eq_false_iff,
    beq_eq_false_iff_ne, ne_eq, decide_eq_false_iff_not, not_le]
  omega

theorem toLower_eq_self_of_isDigit {c : Char} (h : c.isDigit = true) :
    c.toLower = c := by
  obtain ⟨h1, h2⟩ := isDigit_toNat h
  simp only [Char.toLower]
  rw [if_neg]
  omega

/-! ## Text normalizer (`normalize_spaces`, `src/app.py` lines 26-27) -/

/-- `str.strip()`: drop leading and trailing Python whitespace. -/
def stripWS (l : List Char) : List Char :=
  List.rdropWhile pyIsSpace (l.dropWhile pyIsSpace)

/-- The substitution pass of `re.sub(r"\s+", " ", s)`: every maximal run
of whitespace characters is replaced by one space.  The boolean flag
records whether the previous character belonged to a whitespace run
(in which case further whitespace is absorbed into the same run). -/
def collapseWS : Bool → List Char → List Char
  | _, [] => []
  | inRun, c :: rest =>
    if pyIsSpace c then
      if inRun then collapseWS true rest
      else ' ' :: collapseWS true rest
    else c :: collapseWS false rest

/-- `normalize_spaces` from `src/app.py`: `re.sub(r"\s+", " ", s).strip()`. -/
def normalize_spaces (s : String) : String :=
  String.mk (stripWS (collapseWS false s.data))

example : normalize_spaces "  a \t b  " = "a b" := by decide
example : normalize_spaces "" = "" := by decide

/-! ### Idempotence machinery for the normalizer

After one pass every character is either non-whitespace or a single
`' '`, no two spaces are adjacent, and neither end is a space; a second
pass leaves such a list unchanged. -/

/-- Successive characters never form a double space. -/
def spaceRel (a b : Char) : Prop := a = ' ' → b ≠ ' '

theorem collapseWS_only_plain {c : Char} :
    ∀ (l : List Char) (b : Bool), c ∈ collapseWS b l → pyIsSpace c = true → c = ' '
  | [], _, h, _ => absurd h (List.not_mem_nil c)
  | d :: rest, b, h, hws => by
    by_cases hd : pyIsSpace d = true
    · simp only [collapseWS, hd, if_true] at h
      cases b with
      | true => exact collapseWS_only_plain rest true h hws
      | false =>
        rcases List.mem_cons.mp h with h | h
        · exact h
        · exact collapseWS_only_plain rest true h hws
    · simp only [collapseWS, hd, if_false] at h
      rcases List.mem_cons.mp h with h | h
      · subst h; exact absurd hws (by simp [hd])
      · exact collapseWS_only_plain rest false h hws

theorem collapseWS_true_head :
    ∀ (l : List Char) (c : Char), (collapseWS true l).head? = some c →
      pyIsSpace c = false
  | [], c, h => by simp [collapseWS] at h
  | d :: rest, c, h => by
    by_cases hd : pyIsSpace d = true
    · simp only [collapseWS, hd, if_true] at h
      exact collapseWS_true_head rest c h
    · rw [show collapseWS true (d :: rest) = d :: collapseWS false rest from by
        simp [collapseWS, hd]] at h
      rw [List.head?_cons] at h
      cases h
      simpa using hd

theorem collapseWS_chain :
    ∀ (l : List Char) (b : Bool), List.Chain' spaceRel (collapseWS b l)
  | [], _ => by simp [collapseWS]
  | d :: rest, b => by
    by_cases hd : pyIsSpace d = true
    · cases b with
      | true =>
        simpa only [collapseWS, hd, if_true] using collapseWS_chain rest true
      | false =>
        simp only [collapseWS, hd, if_true]
        refine List.chain'_cons'.mpr ⟨?_, collapseWS_chain rest true⟩
        intro y hy heq
        have := collapseWS_true_head rest y hy
        intro hy'
        subst hy'
        simp [pyIsSpace_space] at this
    · rw [show collapseWS b (d :: rest) = d :: collapseWS false rest from by
        cases b <;> simp [collapseWS, hd]]
      refine List.chain'_cons'.mpr ⟨?_, collapseWS_chain rest false⟩
      intro y _ heq
      exact (hd (by rw [heq]; exact pyIsSpace_space)).elim

theorem collapseWS_true_eq_false (l : List Char)
    (h : ∀ c, l.head? = some c → pyIsSpace c = false) :
    collapseWS true l = collapseWS false l := by
  cases l with
  | nil => rfl
  | cons d rest =>
    have hd := h d rfl
    simp [collapseWS, hd]

theorem collapseWS_fix :
    ∀ l : List Char, (∀ c ∈ l, pyIsSpace c = true → c = ' ') →
      List.Chain' spaceRel l → collapseWS false l = l
  | [], _, _ => rfl
  | d :: rest, hplain, hchain => by
    by_cases hd : pyIsSpace d = true
    · have hd' : d = ' ' := hplain d (List.mem_cons_self d rest) hd
      subst hd'
      rw [show collapseWS false (' ' :: rest) = ' ' :: collapseWS true rest from by
        simp [collapseWS, pyIsSpace_space]]
      have hhead : ∀ c, rest.head? = some c → pyIsSpace c = false := by
        intro c hc
        have hrel := (List.chain'_cons'.mp hchain).1 c hc
        by_contra hcs
        have : c = ' ' := hplain c (List.mem_cons_of_mem _ (List.mem_of_mem_head? hc))
          (by revert hcs; cases pyIsSpace c <;> simp)
        exact hrel rfl this
      rw [collapseWS_true_eq_false rest hhead,
        collapseWS_fix rest (fun c hc => hplain c (List.mem_cons_of_mem _ hc))
          (List.Chain'.tail hchain)]
    · rw [show collapseWS false (d :: rest) = d :: collapseWS false rest from by
        simp [collapseWS, hd]]
      rw [collapseWS_fix rest (fun c hc => hplain c (List.mem_cons_of_mem _ hc))
        (List.Chain'.tail hchain)]

theorem mem_of_mem_stripWS {c : Char} {l : List Char} (h : c ∈ stripWS l) : c ∈ l := by
  unfold stripWS at h
  have h1 : c ∈ l.dropWhile pyIsSpace :=
    (List.rdropWhile_prefix pyIsSpace _).subset h
  exact (List.dropWhile_sublist pyIsSpace).subset h1

theorem chain'_dropWhile {R : Char → Char → Prop} {q : Char → Bool} :
    ∀ {l : List Char}, List.Chain' R l → List.Chain' R (l.dropWhile q)
  | [], h => h
  | c :: rest, h => by
    by_cases hc : q c = true
    · rw [List.dropWhile_cons_of_pos hc]
      exact chain'_dropWhile h.tail
    · rwa [List.dropWhile_cons_of_neg (by simpa using hc)]

theorem chain'_stripWS {l : List Char} (h : List.Chain' spaceRel l) :
    List.Chain' spaceRel (stripWS l) := by
  unfold stripWS List.rdropWhile
  rw [List.chain'_reverse]
  apply chain'_dropWhile
  rw [← List.chain'_reverse, List.reverse_reverse]
  exact chain'_dropWhile h

theorem stripWS_head {l : List Char} {c : Char} (h : (stripWS l).head? = some c) :
    pyIsSpace c = false := by
  unfold stripWS at h
  have hpre := List.rdropWhile_prefix pyIsSpace (l.dropWhile pyIsSpace)
  obtain ⟨t, ht⟩ := hpre
  have hh : (l.dropWhile pyIsSpace).head? = some c := by
    rw [← ht, List.head?_append, h]
    rfl
  have := List.head?_dropWhile_not pyIsSpace l
  rw [hh] at this
  exact this

theorem stripWS_last {l : List Char} {c : Char} (h : (stripWS l).getLast? = some c) :
    pyIsSpace c = false := by
  unfold stripWS at h
  have hne : List.rdropWhile pyIsSpace (l.dropWhile pyIsSpace) ≠ [] := by
    intro hnil
    rw [hnil] at h
    simp at h
  have hlast := List.rdropWhile_last_not pyIsSpace (l.dropWhile pyIsSpace) hne
  rw [List.getLast?_eq_getLast _ hne] at h
  have : (List.rdropWhile pyIsSpace (l.dropWhile pyIsSpace)).getLast hne = c :=
    Option.some.inj h
  rw [this] at hlast
  simpa using hlast

theorem stripWS_fix {l : List Char}
    (hh : ∀ c, l.head? = some c → pyIsSpace c = false)
    (hl : ∀ c, l.getLast? = some c → pyIsSpace c = false) :
    stripWS l = l := by
  unfold stripWS
  have h1 : l.dropWhile pyIsSpace = l := by
    cases l with
    | nil => rfl
    | cons d rest =>
      have := hh d rfl
      simp [List.dropWhile_cons, this]
  rw [h1]
  rw [List.rdropWhile_eq_self_iff]
  intro hne
  have := hl (l.getLast hne) (List.getLast?_eq_getLast l hne)
  simp [this]

theorem normalize_spaces_idem (s : String) :
    normalize_spaces (normalize_spaces s) = normalize_spaces s := by
  unfold normalize_spaces
  congr 1
  set N := stripWS (collapseWS false s.data) with hN
  have hplain : ∀ c ∈ N, pyIsSpace c = true → c = ' ' := by
    intro c hc hws
    exact collapseWS_only_plain s.data false (mem_of_mem_stripWS hc) hws
  have hchain : List.Chain' spaceRel N := chain'_stripWS (collapseWS_chain s.data false)
  have hfix1 : collapseWS false N = N := collapseWS_fix N hplain hchain
  show stripWS (collapseWS false (String.mk N).data) = N
  have hdata : (String.mk N).data = N := rfl
  rw [hdata, hfix1]
  exact stripWS_fix (fun c hc => stripWS_head hc) (fun c hc => stripWS_last hc)

/-! ## A backtracking regex engine with Python `re` semantics

The patterns in `src/app.py` are built from literals (case-insensitive
under `re.IGNORECASE`), character classes, greedy `*`/`+`/`?` over
classes, ordered alternation, concatenation and capture groups.
`reMatches r l caps` returns every way `r` can match a prefix of `l`,
as `(remaining suffix, captures)` pairs, in Python's backtracking
priority order (greedy quantifiers longest-first, alternation
left-to-right); the head of the list is the match Python's engine
commits to. -/

/-- Capture environment: group index ↦ captured text (latest binding
first, as Python keeps the most recent participation of a group). -/
abbrev Caps := List (Nat × List Char)

inductive RE where
  | eps
  | lit (ci : Bool) (s : List Char)
  | cls (p : Char → Bool)
  | star (p : Char → Bool)
  | plus (p : Char → Bool)
  | opt (r : RE)
  | alt (r1 r2 : RE)
  | cat (r1 r2 : RE)
  | grp (idx : Nat) (r : RE)

/-- Case-insensitive character comparison (`re.IGNORECASE`). -/
def ciEq (a b : Char) : Bool := a.toLower == b.toLower

/-- Does literal `pat` start the text, with optional case folding? -/
def litPrefix (ci : Bool) : List Char → List Char → Bool
  | [], _ => true
  | _ :: _, [] => false
  | p :: ps, c :: cs => (if ci then ciEq p c else p == c) && litPrefix ci ps cs

def reMatches : RE → List Char → Caps → List (List Char × Caps)
  | .eps, l, caps => [(l, caps)]
  | .lit ci s, l, caps =>
      if litPrefix ci s l then [(l.drop s.length, caps)] else []
  | .cls p, l, caps =>
      match l with
      | [] => []
      | c :: rest => if p c then [(rest, caps)] else []
  | .star p, l, caps =>
      (List.range ((l.takeWhile p).length + 1)).reverse.map (fun k => (l.drop k, caps))
  | .plus p, l, caps =>
      (List.range (l.takeWhile p).length).reverse.map (fun k => (l.drop (k + 1), caps))
  | .opt r, l, caps => reMatches r l caps ++ [(l, caps)]
  | .alt r1 r2, l, caps => reMatches r1 l caps ++ reMatches r2 l caps
  | .cat r1 r2, l, caps =>
      (reMatches r1 l caps).flatMap (fun m => reMatches r2 m.1 m.2)
  | .grp i r, l, caps =>
      (reMatches r l caps).map (fun m => (m.1, (i, l.take (l.length - m.1.length)) :: m.2))

/-- `pattern.finditer(text)`: scan start positions left to right,
committing to the first (highest-priority) match at each position and
resuming after its end; an empty match advances one position, as in
Python.  The fuel argument is `length + 1`, enough for the whole scan. -/
def finditerAux (r : RE) : Nat → List Char → List Caps
  | 0, _ => []
  | fuel + 1, l =>
    match reMatches r l [] with
    | [] =>
      match l with
      | [] => []
      | _ :: rest => finditerAux r fuel rest
    | (rem, caps) :: _ =>
      if rem.length < l.length then caps :: finditerAux r fuel rem
      else
        match l with
        | [] => [caps]
        | _ :: rest => caps :: finditerAux r fuel rest

def finditer (r : RE) (l : List Char) : List Caps := finditerAux r (l.length + 1) l

/-- `re.search`: the first position (scanning left to right) where the
pattern matches, with the committed match's remaining suffix and
captures. -/
def reSearchAux (r : RE) : Nat → List Char → Option (List Char × Caps)
  | 0, _ => none
  | fuel + 1, l =>
    match reMatches r l [] with
    | m :: _ => some m
    | [] =>
      match l with
      | [] => none
      | _ :: rest => reSearchAux r fuel rest

def reSearch (r : RE) (l : List Char) : Option (List Char × Caps) :=
  reSearchAux r (l.length + 1) l

/-! ## The concrete patterns the claims exercise -/

def digitCls (c : Char) : Bool := c.isDigit

/-- `[0-9]+(?:\.[0-9]+)?` — a decimal-or-integer number. -/
def numCore : RE :=
  .cat (.plus digitCls) (.opt (.cat (.lit false ['.']) (.plus digitCls)))

/-- `(crore|cr|lakh|lac|million|billion)` — group 3 of the amount
pattern (alternation is ordered, left to right). -/
def unitAlt : RE :=
  .alt (.lit false "crore".data) (.alt (.lit false "cr".data)
    (.alt (.lit false "lakh".data) (.alt (.lit false "lac".data)
      (.alt (.lit false "million".data) (.lit false "billion".data)))))

/-- `parse_amount`'s search pattern (`src/app.py` line 46, compiled
without `re.IGNORECASE`; the subject text is already lowercased):
`([0-9]+(?:\.[0-9]+)?)(\s*(crore|cr|lakh|lac|million|billion))?`. -/
def amountRE : RE :=
  .cat (.grp 1 numCore)
    (.opt (.grp 2 (.cat (.star pyIsSpace) (.grp 3 unitAlt))))

/-- `[\s:–-]` (whitespace, colon, en dash, hyphen). -/
def fvSepCls (c : Char) : Bool := pyIsSpace c || c == ':' || c == '–' || c == '-'

/-- `[\w\s]`. -/
def wordWsCls (c : Char) : Bool := pyIsWord c || pyIsSpace c

/-- `[:\-—]`. -/
def colonDashEmCls (c : Char) : Bool := c == ':' || c == '-' || c == '—'

/-- `(Rs\.?\s*)` — group 1 of the face-value pattern. -/
def rsGrp : RE :=
  .grp 1 (.cat (.lit true "Rs".data) (.cat (.opt (.lit true ['.'])) (.star pyIsSpace)))

/-- The `"Face Value"` pattern (`src/app.py` line 105, `re.IGNORECASE`):
`face value[\s:–-]*[\w\s]*(?:[:\-—]*)[\s\n]*₹?\s*(Rs\.?\s*)?([0-9]+(?:\.[0-9]+)?)`
(`[\s\n]` coincides with `\s`). -/
def faceValueRE : RE :=
  .cat (.lit true "face value".data)
    (.cat (.star fvSepCls)
      (.cat (.star wordWsCls)
        (.cat (.star colonDashEmCls)
          (.cat (.star pyIsSpace)
            (.cat (.opt (.lit true ['₹']))
              (.cat (.star pyIsSpace)
                (.cat (.opt rsGrp) (.grp 2 numCore))))))))

/-- `(?:offer price|issue price|price range|offer price range)`. -/
def ipKw : RE :=
  .alt (.lit true "offer price".data) (.alt (.lit true "issue price".data)
    (.alt (.lit true "price range".data) (.lit true "offer price range".data)))

/-- `[-–—]`. -/
def dashCls (c : Char) : Bool := c == '-' || c == '–' || c == '—'

/-- `[:\-]`. -/
def colonHyphenCls (c : Char) : Bool := c == ':' || c == '-'

/-- Group 1 of the issue-price pattern:
`([0-9]+(?:\.[0-9]+)?(?:\s*[-–—]\s*[0-9]+(?:\.[0-9]+)?)?)`. -/
def ipNum : RE :=
  .cat numCore
    (.opt (.cat (.star pyIsSpace) (.cat (.cls dashCls) (.cat (.star pyIsSpace) numCore))))

/-- Everything of the issue-price pattern before its capture group:
`(?:offer price|issue price|price range|offer price range)?\s*(?:of)?\s*[:\-]*\s*₹?\s*`.
Every component is optional, so this can match the empty string. -/
def ipPre : RE :=
  .cat (.opt ipKw)
    (.cat (.star pyIsSpace)
      (.cat (.opt (.lit true "of".data))
        (.cat (.star pyIsSpace)
          (.cat (.star colonHyphenCls)
            (.cat (.star pyIsSpace)
              (.cat (.opt (.lit true ['₹'])) (.star pyIsSpace)))))))

/-- The `"Issue Price"` pattern (`src/app.py` lines 108-111,
`re.IGNORECASE`). -/
def issuePriceRE : RE := .cat ipPre (.grp 1 ipNum)

/-! ## Amount parser (`parse_amount`, `src/app.py` lines 30-52) -/

/-- `str.replace(pat, "")` for a multi-character pattern: remove
non-overlapping occurrences, scanning left to right.  Fuel is the text
length (each step consumes at least one character). -/
def removeSubAux (pat : List Char) : Nat → List Char → List Char
  | 0, l => l
  | _ + 1, [] => []
  | fuel + 1, c :: rest =>
    if pat.isPrefixOf (c :: rest) then
      removeSubAux pat fuel (List.drop pat.length (c :: rest))
    else c :: removeSubAux pat fuel rest

def removeSub (pat l : List Char) : List Char := removeSubAux pat l.length l

/-- The cleaning pipeline of `parse_amount` (lines 36-43): drop
zero-width spaces, strip, remove `₹` / `Rs.` / `INR` / thousands
commas, lowercase, unify dash variants, strip again. -/
def cleanAmount (l : List Char) : List Char :=
  let t0 := l.filter (fun c => c != '\u200B')
  let t1 := stripWS t0
  let t2 := t1.filter (fun c => c != '₹')
  let t3 := removeSub "Rs.".data t2
  let t4 := removeSub "INR".data t3
  let t5 := t4.filter (fun c => c != ',')
  let t6 := t5.map Char.toLower
  let t7 := t6.map (fun c => if c == '–' || c == '—' then '-' else c)
  stripWS t7

/-- `parse_amount` from `src/app.py`: empty input maps to `"N/A"`;
otherwise clean the text and return the first number with its optional
unit (`m.group(1)`, `m.group(3)`), falling back to the cleaned text
when no number exists.  Total by construction — it never fails. -/
def parse_amount (text : String) : String :=
  if text = "" then "N/A"
  else
    let t := cleanAmount text.data
    match reSearch amountRE t with
    | some m =>
      let num := (m.2.lookup 1).getD []
      let unit := (m.2.lookup 3).getD []
      String.mk (stripWS (num ++ (if unit = [] then [] else ' ' :: unit)))
    | none => String.mk t

example : parse_amount "" = "N/A" := by decide
example : parse_amount "₹ 1,200 crore" = "1200 crore" := by decide
example : parse_amount "120-125" = "120" := by decide
example : parse_amount "abc" = "abc" := by decide
example : parse_amount "12 cr" = "12 cr" := by decide
example : parse_amount "120.00" = "120.00" := by decide

/-! ## Candidate resolver and field assembly (`src/app.py` lines 55-175) -/

/-- A resolved field: `{"value": ..., "pages": [...]}`. -/
structure FieldResult where
  value : String
  pages : List Nat
deriving DecidableEq

/-- Python's `sorted(set(l))` for page numbers: distinct elements in
ascending order. -/
def sortedDedupNat (l : List Nat) : List Nat :=
  List.insertionSort (· ≤ ·) l.dedup

/-- Python's `<` on strings: lexicographic comparison by code point. -/
def strLtB : List Char → List Char → Bool
  | [], [] => false
  | [], _ :: _ => true
  | _ :: _, [] => false
  | a :: as, b :: bs => if a < b then true else if b < a then false else strLtB as bs

/-- Python's `<=` on strings, as a proposition. -/
def pyStrLe (a b : String) : Prop := strLtB b.data a.data = false

instance (a b : String) : Decidable (pyStrLe a b) := by
  unfold pyStrLe; infer_instance

/-- Insert into a lexicographically sorted list (stable, as Python's
sort is; after `dedup` stability is irrelevant). -/
def insertStr (x : String) : List String → List String
  | [] => [x]
  | y :: ys => if strLtB y.data x.data then y :: insertStr x ys else x :: y :: ys

/-- Python's `sorted(set(l))` for strings (lexicographic by code point). -/
def sortedDedupStr (l : List String) : List String :=
  l.dedup.foldr insertStr []

/-- Python's `max(values, key=lambda x: len(x))`: iterate left to right,
replacing the current best only on a strictly greater length, so the
first value of maximal length wins. -/
def maxByLen (best : String) : List String → String
  | [] => best
  | v :: rest => maxByLen (if best.length < v.length then v else best) rest

/-- `find_all` from `src/app.py`: run the pattern over every page's raw
text, recording `(normalize_spaces(m.group(1).strip()), page_number)`
for every match; pages are numbered from 1.  (For the patterns used
with `find_all`, group 1 always participates in a match; `getD []`
models that.) -/
def find_all (r : RE) (pages : List String) : List (String × Nat) :=
  pages.enum.flatMap fun ip =>
    (finditer r ip.2.data).map fun caps =>
      (normalize_spaces (String.mk (stripWS ((caps.lookup 1).getD []))), ip.1 + 1)

/-- `first_or_na` from `src/app.py`: on an empty match list return the
`"N/A"` sentinel; otherwise the longest value (first occurrence wins a
tie) and the sorted, deduplicated page numbers of **all** matches. -/
def first_or_na (ms : List (String × Nat)) : FieldResult :=
  match ms with
  | [] => { value := "N/A", pages := [] }
  | (v, p) :: rest =>
    { value := maxByLen v (rest.map Prod.fst)
      pages := sortedDedupNat (((v, p) :: rest).map Prod.snd) }

/-- The `"Face Value"` branch of Step 3 (`src/app.py` lines 132-139):
`m.group(2)` (the number) when truthy, else `m.group(1)`, stripped. -/
def face_value_matches (pages : List String) : List (String × Nat) :=
  pages.enum.flatMap fun ip =>
    (finditer faceValueRE ip.2.data).map fun caps =>
      (let g2 := (caps.lookup 2).getD []
       if g2 ≠ [] then String.mk (stripWS g2) else String.mk (stripWS ((caps.lookup 1).getD []))
      , ip.1 + 1)

/-- Step 5 (`src/app.py` lines 163-168) applied to one numeric field:
pass the resolved value through `parse_amount` unless it is `"N/A"`. -/
def clean_numeric (r : FieldResult) : FieldResult :=
  if r.value ≠ "N/A" then { r with value := parse_amount r.value } else r

/-- The full `"Face Value"` pipeline: match per page, resolve, clean. -/
def extract_face_value (pages : List String) : FieldResult :=
  clean_numeric (first_or_na (face_value_matches pages))

/-- The full `"Issue Price"` pipeline: match per page, resolve, clean. -/
def extract_issue_price (pages : List String) : FieldResult :=
  clean_numeric (first_or_na (find_all issuePriceRE pages))

/-- Step 4 (`src/app.py` lines 144-161): the multi-value lead-managers
field.  With primary matches, the value is the distinct raw values
sorted and joined with `", "`, and the pages are the sorted distinct
page numbers; with no primary matches the fallback match list is
resolved by `first_or_na`. -/
def lead_managers_resolve (brlm fallback : List (String × Nat)) : FieldResult :=
  match brlm with
  | [] => first_or_na fallback
  | ms =>
    { value := String.intercalate ", " (sortedDedupStr (ms.map Prod.fst))
      pages := sortedDedupNat (ms.map Prod.snd) }

/-- Step 6 (`src/app.py` lines 170-175): company-name cleanup,
`re.sub(r"\s+[,\.-]+$", "", value)` when the value is not `"N/A"`.
The pattern is anchored at the end: it removes a final run of
`,`/`.`/`-` characters together with the whitespace run immediately
before it — and only matches when that whitespace run is non-empty.
Compiled here by inspecting the two trailing runs. -/
def trailPunct (c : Char) : Bool := c == ',' || c == '.' || c == '-'

def companyNameSub (l : List Char) : List Char :=
  let r := l.reverse
  let punct := r.takeWhile trailPunct
  let afterPunct := r.dropWhile trailPunct
  let ws := afterPunct.takeWhile pyIsSpace
  if punct = [] || ws = [] then l
  else (afterPunct.dropWhile pyIsSpace).reverse

def company_name_clean (r : FieldResult) : FieldResult :=
  if r.value ≠ "N/A" then { r with value := String.mk (companyNameSub r.value.data) } else r

example : companyNameSub "Acme Industries Limited,".data = "Acme Industries Limited,".data := by
  decide
example : companyNameSub "Acme Industries Limited ,".data = "Acme Industries Limited".data := by
  decide
example : companyNameSub "Acme Co .,- ".data = "Acme Co .,- ".data := by decide
example : companyNameSub "Acme Co \u00a0.,-".data = "Acme Co".data := by decide

example :
    first_or_na [("ab", 1), ("x", 2)] = { value := "ab", pages := [1, 2] } := by decide
example : first_or_na [] = { value := "N/A", pages := [] } := by decide
example :
    lead_managers_resolve [("X Ltd", 1), ("X Ltd", 2), ("Y Ltd", 3)] [] =
      { value := "X Ltd, Y Ltd", pages := [1, 2, 3] } := by decide

/-! ## Properties of the resolver building blocks -/

theorem maxByLen_split :
    ∀ (l : List String) (best : String),
      ∃ pre post, best :: l = pre ++ maxByLen best l :: post ∧
        (∀ v ∈ best :: l, v.length ≤ (maxByLen best l).length) ∧
        (∀ v ∈ pre, v.length < (maxByLen best l).length)
  | [], best => by
    refine ⟨[], [], rfl, ?_, by simp⟩
    intro v hv
    rw [show maxByLen best [] = best from rfl]
    rcases List.mem_cons.mp hv with rfl | hv
    · exact le_refl _
    · exact absurd hv (List.not_mem_nil v)
  | v :: rest, best => by
    by_cases hbv : best.length < v.length
    · obtain ⟨pre', post', heq, hle, hlt⟩ := maxByLen_split rest v
      refine ⟨best :: pre', post', ?_, ?_, ?_⟩
      · simpa [maxByLen, hbv] using heq
      · intro x hx
        rw [show maxByLen best (v :: rest) = maxByLen v rest from by simp [maxByLen, hbv]]
        rcases List.mem_cons.mp hx with rfl | hx
        · exact le_of_lt (lt_of_lt_of_le hbv (hle v (List.mem_cons_self v rest)))
        · exact hle x hx
      · intro x hx
        rw [show maxByLen best (v :: rest) = maxByLen v rest from by simp [maxByLen, hbv]]
        rcases List.mem_cons.mp hx with rfl | hx
        · exact lt_of_lt_of_le hbv (hle v (List.mem_cons_self v rest))
        · exact hlt x hx
    · obtain ⟨pre', post', heq, hle, hlt⟩ := maxByLen_split rest best
      have hval : maxByLen best (v :: rest) = maxByLen best rest := by
        simp [maxByLen, hbv]
      cases pre' with
      | nil =>
        have hhead : best :: rest = maxByLen best rest :: post' := heq
        have hbesteq : maxByLen best rest = best := (List.cons.inj hhead).1.symm
        refine ⟨[], v :: rest, ?_, ?_, by simp⟩
        · rw [hval, hbesteq]
          simp
        · intro x hx
          rw [hval, hbesteq]
          rcases List.mem_cons.mp hx with rfl | hx
          · exact le_refl _
          · rcases List.mem_cons.mp hx with rfl | hx
            · exact le_of_not_lt hbv
            · have := hle x (List.mem_cons_of_mem best hx)
              rwa [hbesteq] at this
      | cons a pre'' =>
        have hcons : best = a ∧ rest = pre'' ++ maxByLen best rest :: post' := by
          have h := heq
          rw [List.cons_append] at h
          exact ⟨(List.cons.inj h).1, (List.cons.inj h).2⟩
        obtain ⟨hba, htail⟩ := hcons
        have hbestlt : best.length < (maxByLen best rest).length := by
          rw [show best.length = a.length from by rw [hba]]
          exact hlt a (List.mem_cons_self a pre'')
        refine ⟨best :: v :: pre'', post', ?_, ?_, ?_⟩
        · rw [hval]
          simp only [List.cons_append]
          rw [← htail]
        · intro x hx
          rw [hval]
          rcases List.mem_cons.mp hx with rfl | hx
          · exact hle x (List.mem_cons_self x rest)
          · rcases List.mem_cons.mp hx with rfl | hx
            · exact le_trans (le_of_not_lt hbv) (le_of_lt hbestlt)
            · exact hle x (List.mem_cons_of_mem best hx)
        · intro x hx
          rw [hval]
          rcases List.mem_cons.mp hx with rfl | hx
          · exact hbestlt
          · rcases List.mem_cons.mp hx with rfl | hx
            · exact lt_of_le_of_lt (le_of_not_lt hbv) hbestlt
            · exact hlt x (List.mem_cons_of_mem a hx)

theorem maxByLen_mem (l : List String) (best : String) :
    maxByLen best l ∈ best :: l := by
  obtain ⟨pre, post, heq, -, -⟩ := maxByLen_split l best
  rw [heq]
  exact List.mem_append_right pre (List.mem_cons_self _ post)

/-- The "longest value, earliest first occurrence" characterization
determines the value uniquely; this is the determinism content of the
resolver's tie-break. -/
theorem longest_first_unique :
    ∀ (pre1 : List String) (xs post1 pre2 post2 : List String) (v1 v2 : String),
      xs = pre1 ++ v1 :: post1 → xs = pre2 ++ v2 :: post2 →
      (∀ v ∈ xs, v.length ≤ v1.length) → (∀ v ∈ pre1, v.length < v1.length) →
      (∀ v ∈ xs, v.length ≤ v2.length) → (∀ v ∈ pre2, v.length < v2.length) →
      v1 = v2
  | [], xs, post1, pre2, post2, v1, v2, h1, h2, le1, lt1, le2, lt2 => by
    cases pre2 with
    | nil =>
      rw [List.nil_append] at h1 h2
      rw [h1] at h2
      exact (List.cons.inj h2).1
    | cons b pre2' =>
      exfalso
      rw [List.nil_append] at h1
      have hb : b = v1 := by
        rw [h1, List.cons_append] at h2
        exact ((List.cons.inj h2).1).symm
      have hv1mem : v1 ∈ b :: pre2' := by rw [← hb]; exact List.mem_cons_self b pre2'
      have h3 : v1.length < v2.length := lt2 v1 hv1mem
      have h4 : v2.length ≤ v1.length :=
        le1 v2 (by rw [h2]; exact List.mem_append_right _ (List.mem_cons_self _ _))
      omega
  | a :: pre1', xs, post1, pre2, post2, v1, v2, h1, h2, le1, lt1, le2, lt2 => by
    cases pre2 with
    | nil =>
      exfalso
      rw [List.nil_append] at h2
      have ha : a = v2 := by
        rw [h2, List.cons_append] at h1
        exact ((List.cons.inj h1).1).symm
      have h3 : v2.length < v1.length := by
        rw [← ha]
        exact lt1 a (List.mem_cons_self a pre1')
      have h4 : v1.length ≤ v2.length :=
        le2 v1 (by rw [h1]; exact List.mem_append_right _ (List.mem_cons_self _ _))
      omega
    | cons b pre2' =>
      rw [List.cons_append] at h1 h2
      cases xs with
      | nil => exact absurd h1 (List.cons_ne_nil _ _).symm
      | cons x xs' =>
        obtain ⟨rfl, h1'⟩ := List.cons.inj h1
        obtain ⟨rfl, h2'⟩ := List.cons.inj h2
        exact longest_first_unique pre1' xs' post1 pre2' post2 v1 v2 h1' h2'
          (fun v hv => le1 v (List.mem_cons_of_mem _ hv))
          (fun v hv => lt1 v (List.mem_cons_of_mem _ hv))
          (fun v hv => le2 v (List.mem_cons_of_mem _ hv))
          (fun v hv => lt2 v (List.mem_cons_of_mem _ hv))

theorem sortedDedupNat_sorted (l : List Nat) :
    List.Sorted (· < ·) (sortedDedupNat l) := by
  have h1 : List.Sorted (· ≤ ·) (sortedDedupNat l) :=
    List.sorted_insertionSort (· ≤ ·) l.dedup
  have h2 : (sortedDedupNat l).Nodup :=
    ((List.perm_insertionSort (· ≤ ·) l.dedup).nodup_iff).mpr l.nodup_dedup
  exact List.Sorted.lt_of_le h1 h2

theorem sortedDedupNat_nodup (l : List Nat) : (sortedDedupNat l).Nodup :=
  ((List.perm_insertionSort (· ≤ ·) l.dedup).nodup_iff).mpr l.nodup_dedup

theorem mem_sortedDedupNat {p : Nat} {l : List Nat} : p ∈ sortedDedupNat l ↔ p ∈ l := by
  unfold sortedDedupNat
  rw [(List.perm_insertionSort (· ≤ ·) l.dedup).mem_iff, List.mem_dedup]

/-! ### The code-point order on strings -/

theorem char_lt_iff_toNat {a b : Char} : a < b ↔ a.toNat < b.toNat := Iff.rfl

theorem strLtB_irrefl : ∀ a : List Char, strLtB a a = false
  | [] => rfl
  | c :: rest => by simp [strLtB, lt_irrefl, strLtB_irrefl rest]

theorem strLtB_connex : ∀ a b : List Char,
    strLtB a b = true ∨ strLtB b a = true ∨ a = b
  | [], [] => Or.inr (Or.inr rfl)
  | [], _ :: _ => Or.inl rfl
  | _ :: _, [] => Or.inr (Or.inl rfl)
  | a0 :: as, b0 :: bs => by
    rcases lt_trichotomy a0 b0 with h | h | h
    · left
      simp [strLtB, h]
    · subst h
      rcases strLtB_connex as bs with h | h | h
      · left
        simp [strLtB, lt_irrefl, h]
      · right; left
        simp [strLtB, lt_irrefl, h]
      · right; right
        rw [h]
    · right; left
      simp [strLtB, h]

theorem strLtB_trans : ∀ {a b c : List Char},
    strLtB a b = true → strLtB b c = true → strLtB a c = true
  | [], b, c, _, h2 => by
    cases c with
    | nil => cases b <;> simp [strLtB] at h2
    | cons c0 cs => rfl
  | a0 :: as, b, c, h1, h2 => by
    cases b with
    | nil => simp [strLtB] at h1
    | cons b0 bs =>
      cases c with
      | nil => simp [strLtB] at h2
      | cons c0 cs =>
        simp only [strLtB] at h1 h2 ⊢
        by_cases hab : a0 < b0 <;> by_cases hbc : b0 < c0
        · rw [if_pos (lt_trans hab hbc)]
        · rw [if_neg hbc] at h2
          by_cases hcb : c0 < b0
          · rw [if_pos hcb] at h2
            exact absurd h2 (by simp)
          · have : b0 = c0 := le_antisymm (not_lt.mp hcb) (not_lt.mp hbc)
            rw [if_pos (this ▸ hab)]
        · rw [if_neg hab] at h1
          by_cases hba : b0 < a0
          · rw [if_pos hba] at h1
            exact absurd h1 (by simp)
          · have : a0 = b0 := le_antisymm (not_lt.mp hba) (not_lt.mp hab)
            rw [if_pos (this ▸ hbc)]
        · rw [if_neg hab] at h1
          rw [if_neg hbc] at h2
          by_cases hba : b0 < a0
          · rw [if_pos hba] at h1
            exact absurd h1 (by simp)
          by_cases hcb : c0 < b0
          · rw [if_pos hcb] at h2
            exact absurd h2 (by simp)
          rw [if_neg hba] at h1
          rw [if_neg hcb] at h2
          have hab' : a0 = b0 := le_antisymm (not_lt.mp hba) (not_lt.mp hab)
          have hbc' : b0 = c0 := le_antisymm (not_lt.mp hcb) (not_lt.mp hbc)
          have hac : ¬a0 < c0 := by rw [hab', hbc']; exact lt_irrefl c0
          have hca : ¬c0 < a0 := by rw [hab', hbc']; exact lt_irrefl c0
          rw [if_neg hac, if_neg hca]
          exact strLtB_trans h1 h2

theorem strLtB_asymm {a b : List Char} (h : strLtB a b = true) : strLtB b a = false := by
  by_contra hc
  have hba : strLtB b a = true := by revert hc; cases strLtB b a <;> simp
  have := strLtB_trans h hba
  rw [strLtB_irrefl a] at this
  exact absurd this (by simp)

theorem strLtB_eq_of_not {a b : List Char} (h1 : strLtB a b = false)
    (h2 : strLtB b a = false) : a = b := by
  rcases strLtB_connex a b with h | h | h
  · rw [h] at h1
    exact absurd h1 (by simp)
  · rw [h] at h2
    exact absurd h2 (by simp)
  · exact h

theorem pyStrLe_trans {x y z : String} (h1 : pyStrLe x y) (h2 : pyStrLe y z) :
    pyStrLe x z := by
  unfold pyStrLe at h1 h2 ⊢
  by_contra hc
  have hzx : strLtB z.data x.data = true := by revert hc; cases strLtB z.data x.data <;> simp
  rcases strLtB_connex x.data y.data with h | h | h
  · have := strLtB_trans hzx h
    rw [h2] at this
    exact absurd this (by simp)
  · rw [h1] at h
    exact absurd h (by simp)
  · rw [← h] at h2
    rw [h2] at hzx
    exact absurd hzx (by simp)

theorem insertStr_perm (x : String) : ∀ l : List String, (insertStr x l).Perm (x :: l)
  | [] => List.Perm.refl _
  | y :: ys => by
    by_cases h : strLtB y.data x.data = true
    · rw [show insertStr x (y :: ys) = y :: insertStr x ys from by simp [insertStr, h]]
      exact ((insertStr_perm x ys).cons y).trans (List.Perm.swap x y ys)
    · rw [show insertStr x (y :: ys) = x :: y :: ys from by
        simp [insertStr]
        intro hcon
        rw [hcon] at h
        exact (h rfl).elim]

theorem mem_insertStr {x v : String} {l : List String} :
    v ∈ insertStr x l ↔ v = x ∨ v ∈ l := by
  rw [(insertStr_perm x l).mem_iff, List.mem_cons]

theorem insertStr_pairwise {x : String} :
    ∀ {l : List String}, l.Pairwise pyStrLe → (insertStr x l).Pairwise pyStrLe
  | [], _ => by simp [insertStr]
  | y :: ys, hp => by
    obtain ⟨hy, hys⟩ := List.pairwise_cons.mp hp
    by_cases h : strLtB y.data x.data = true
    · rw [show insertStr x (y :: ys) = y :: insertStr x ys from by simp [insertStr, h]]
      refine List.pairwise_cons.mpr ⟨?_, insertStr_pairwise hys⟩
      intro z hz
      rcases mem_insertStr.mp hz with rfl | hz
      · exact strLtB_asymm h
      · exact hy z hz
    · have hxy : pyStrLe x y := by
        unfold pyStrLe
        revert h
        cases strLtB y.data x.data <;> simp
      rw [show insertStr x (y :: ys) = x :: y :: ys from by
        simp [insertStr]
        intro hcon
        rw [hcon] at h
        exact (h rfl).elim]
      refine List.pairwise_cons.mpr ⟨?_, hp⟩
      intro z hz
      rcases List.mem_cons.mp hz with rfl | hz
      · exact hxy
      · exact pyStrLe_trans hxy (hy z hz)

theorem foldr_insertStr_perm : ∀ m : List String, (m.foldr insertStr []).Perm m
  | [] => List.Perm.refl _
  | x :: xs => by
    rw [List.foldr_cons]
    exact (insertStr_perm x (xs.foldr insertStr [])).trans
      ((foldr_insertStr_perm xs).cons x)

theorem foldr_insertStr_pairwise : ∀ m : List String,
    (m.foldr insertStr []).Pairwise pyStrLe
  | [] => List.Pairwise.nil
  | x :: xs => by
    rw [List.foldr_cons]
    exact insertStr_pairwise (foldr_insertStr_pairwise xs)

theorem sortedDedupStr_pairwise (l : List String) :
    (sortedDedupStr l).Pairwise pyStrLe :=
  foldr_insertStr_pairwise l.dedup

theorem sortedDedupStr_nodup (l : List String) : (sortedDedupStr l).Nodup :=
  ((foldr_insertStr_perm l.dedup).nodup_iff).mpr l.nodup_dedup

theorem mem_sortedDedupStr {v : String} {l : List String} :
    v ∈ sortedDedupStr l ↔ v ∈ l := by
  unfold sortedDedupStr
  rw [(foldr_insertStr_perm l.dedup).mem_iff, List.mem_dedup]

/-! ## Engine metatheory -/

/-- The capture-group indices a pattern can bind. -/
def grpIdxs : RE → List Nat
  | .grp i r => i :: grpIdxs r
  | .cat r1 r2 => grpIdxs r1 ++ grpIdxs r2
  | .alt r1 r2 => grpIdxs r1 ++ grpIdxs r2
  | .opt r => grpIdxs r
  | _ => []

theorem reMatches_rem_length :
    ∀ (r : RE) {l : List Char} {caps : Caps} {m : List Char × Caps},
      m ∈ reMatches r l caps → m.1.length ≤ l.length
  | .eps, l, caps, m, h => by
    simp only [reMatches, List.mem_singleton] at h
    subst h; exact le_refl _
  | .lit ci s, l, caps, m, h => by
    simp only [reMatches] at h
    split at h
    · simp only [List.mem_singleton] at h
      subst h
      simpa using List.length_drop_le s.length l
    · exact absurd h (List.not_mem_nil m)
  | .cls p, l, caps, m, h => by
    cases l with
    | nil => simp [reMatches] at h
    | cons c rest =>
      simp only [reMatches] at h
      split at h
      · simp only [List.mem_singleton] at h
        subst h
        simp
      · exact absurd h (List.not_mem_nil m)
  | .star p, l, caps, m, h => by
    simp only [reMatches, List.mem_map] at h
    obtain ⟨k, -, rfl⟩ := h
    simpa using List.length_drop_le k l
  | .plus p, l, caps, m, h => by
    simp only [reMatches, List.mem_map] at h
    obtain ⟨k, -, rfl⟩ := h
    simpa using List.length_drop_le (k + 1) l
  | .opt r, l, caps, m, h => by
    simp only [reMatches, List.mem_append, List.mem_singleton] at h
    rcases h with h | h
    · exact reMatches_rem_length r h
    · subst h; exact le_refl _
  | .alt r1 r2, l, caps, m, h => by
    simp only [reMatches, List.mem_append] at h
    rcases h with h | h
    · exact reMatches_rem_length r1 h
    · exact reMatches_rem_length r2 h
  | .cat r1 r2, l, caps, m, h => by
    simp only [reMatches, List.mem_flatMap] at h
    obtain ⟨m1, h1, h2⟩ := h
    exact le_trans (reMatches_rem_length r2 h2) (reMatches_rem_length r1 h1)
  | .grp i r, l, caps, m, h => by
    simp only [reMatches, List.mem_map] at h
    obtain ⟨m1, h1, rfl⟩ := h
    show m1.1.length ≤ l.length
    exact reMatches_rem_length r h1

theorem reMatches_lookup_eq :
    ∀ (r : RE) {k : Nat}, k ∉ grpIdxs r →
      ∀ {l : List Char} {caps : Caps} {m : List Char × Caps},
        m ∈ reMatches r l caps → m.2.lookup k = caps.lookup k
  | .eps, k, hk, l, caps, m, h => by
    simp only [reMatches, List.mem_singleton] at h
    subst h; rfl
  | .lit ci s, k, hk, l, caps, m, h => by
    simp only [reMatches] at h
    split at h
    · simp only [List.mem_singleton] at h
      subst h; rfl
    · exact absurd h (List.not_mem_nil m)
  | .cls p, k, hk, l, caps, m, h => by
    cases l with
    | nil => simp [reMatches] at h
    | cons c rest =>
      simp only [reMatches] at h
      split at h
      · simp only [List.mem_singleton] at h
        subst h; rfl
      · exact absurd h (List.not_mem_nil m)
  | .star p, k, hk, l, caps, m, h => by
    simp only [reMatches, List.mem_map] at h
    obtain ⟨j, -, rfl⟩ := h
    rfl
  | .plus p, k, hk, l, caps, m, h => by
    simp only [reMatches, List.mem_map] at h
    obtain ⟨j, -, rfl⟩ := h
    rfl
  | .opt r, k, hk, l, caps, m, h => by
    simp only [reMatches, List.mem_append, List.mem_singleton] at h
    rcases h with h | h
    · exact reMatches_lookup_eq r (by simpa [grpIdxs] using hk) h
    · subst h; rfl
  | .alt r1 r2, k, hk, l, caps, m, h => by
    simp only [grpIdxs, List.mem_append] at hk
    push_neg at hk
    simp only [reMatches, List.mem_append] at h
    rcases h with h | h
    · exact reMatches_lookup_eq r1 hk.1 h
    · exact reMatches_lookup_eq r2 hk.2 h
  | .cat r1 r2, k, hk, l, caps, m, h => by
    simp only [grpIdxs, List.mem_append] at hk
    push_neg at hk
    simp only [reMatches, List.mem_flatMap] at h
    obtain ⟨m1, h1, h2⟩ := h
    rw [reMatches_lookup_eq r2 hk.2 h2, reMatches_lookup_eq r1 hk.1 h1]
  | .grp i r, k, hk, l, caps, m, h => by
    simp only [grpIdxs, List.mem_cons] at hk
    push_neg at hk
    simp only [reMatches, List.mem_map] at h
    obtain ⟨m1, h1, rfl⟩ := h
    show List.lookup k ((i, _) :: m1.2) = caps.lookup k
    have hne : (k == i) = false := by simpa using hk.1
    rw [List.lookup_cons, hne]
    exact reMatches_lookup_eq r hk.2 h1

/-- Characterization of a `plus` match: at least one class character is
consumed, so the text starts with a character of the class. -/
theorem reMatches_plus_mem {p : Char → Bool} {l : List Char} {caps : Caps}
    {m : List Char × Caps} (h : m ∈ reMatches (.plus p) l caps) :
    m.2 = caps ∧ m.1.length < l.length ∧
      ∃ c rest, l = c :: rest ∧ p c = true := by
  simp only [reMatches, List.mem_map, List.mem_reverse, List.mem_range] at h
  obtain ⟨k, hk, rfl⟩ := h
  have hrun : 1 ≤ (l.takeWhile p).length := by omega
  cases hl : l with
  | nil => rw [hl] at hrun; simp at hrun
  | cons c rest =>
    subst hl
    by_cases hc : p c = true
    · refine ⟨rfl, ?_, c, rest, rfl, hc⟩
      simp only [List.length_drop, List.length_cons]
      have hsub : List.Sublist ((c :: rest).takeWhile p) (c :: rest) :=
        List.takeWhile_sublist p
      have : (List.takeWhile p (c :: rest)).length ≤ rest.length + 1 := by
        simpa using hsub.length_le
      omega
    · rw [List.takeWhile_cons_of_neg (by simpa using hc)] at hrun
      simp at hrun

/-! ### Nullability: matching the empty prefix -/

theorem null_eps {l : List Char} {caps : Caps} : (l, caps) ∈ reMatches .eps l caps := by
  simp [reMatches]

theorem null_opt {r : RE} {l : List Char} {caps : Caps} :
    (l, caps) ∈ reMatches (.opt r) l caps := by
  simp [reMatches]

theorem null_star {p : Char → Bool} {l : List Char} {caps : Caps} :
    (l, caps) ∈ reMatches (.star p) l caps := by
  simp only [reMatches, List.mem_map, List.mem_reverse, List.mem_range]
  exact ⟨0, by omega, by simp⟩

theorem null_cat {r1 r2 : RE} {l : List Char} {caps : Caps}
    (h1 : (l, caps) ∈ reMatches r1 l caps) (h2 : (l, caps) ∈ reMatches r2 l caps) :
    (l, caps) ∈ reMatches (.cat r1 r2) l caps := by
  simp only [reMatches, List.mem_flatMap]
  exact ⟨(l, caps), h1, h2⟩

theorem null_ipPre {l : List Char} {caps : Caps} :
    (l, caps) ∈ reMatches ipPre l caps :=
  null_cat null_opt (null_cat null_star (null_cat null_opt (null_cat null_star
    (null_cat null_star (null_cat null_star (null_cat null_opt null_star))))))

/-! ### Structural membership lemmas -/

theorem cat_mem_elim {r1 r2 : RE} {l : List Char} {caps : Caps} {m : List Char × Caps}
    (h : m ∈ reMatches (.cat r1 r2) l caps) :
    ∃ m1 ∈ reMatches r1 l caps, m ∈ reMatches r2 m1.1 m1.2 := by
  simpa only [reMatches, List.mem_flatMap] using h

theorem cat_mem_intro {r1 r2 : RE} {l : List Char} {caps : Caps}
    {m m1 : List Char × Caps} (h1 : m1 ∈ reMatches r1 l caps)
    (h : m ∈ reMatches r2 m1.1 m1.2) : m ∈ reMatches (.cat r1 r2) l caps := by
  simp only [reMatches, List.mem_flatMap]
  exact ⟨m1, h1, h⟩

theorem grp_mem_elim {i : Nat} {r : RE} {l : List Char} {caps : Caps}
    {m : List Char × Caps} (h : m ∈ reMatches (.grp i r) l caps) :
    ∃ m1 ∈ reMatches r l caps,
      m = (m1.1, (i, l.take (l.length - m1.1.length)) :: m1.2) := by
  simp only [reMatches, List.mem_map] at h
  obtain ⟨m1, h1, heq⟩ := h
  exact ⟨m1, h1, heq.symm⟩

theorem grp_mem_intro {i : Nat} {r : RE} {l : List Char} {caps : Caps}
    {m1 : List Char × Caps} (h : m1 ∈ reMatches r l caps) :
    (m1.1, (i, l.take (l.length - m1.1.length)) :: m1.2) ∈ reMatches (.grp i r) l caps := by
  simp only [reMatches, List.mem_map]
  exact ⟨m1, h, rfl⟩

theorem plus_mem_head {p : Char → Bool} {c : Char} {rest : List Char} {caps : Caps}
    (hc : p c = true) : (rest, caps) ∈ reMatches (.plus p) (c :: rest) caps := by
  simp only [reMatches, List.mem_map, List.mem_reverse, List.mem_range]
  refine ⟨0, ?_, by simp⟩
  rw [List.takeWhile_cons_of_pos hc]
  simp

/-! ### The number patterns require a leading digit -/

theorem numCore_mem {l : List Char} {caps : Caps} {m : List Char × Caps}
    (h : m ∈ reMatches numCore l caps) :
    m.1.length < l.length ∧ ∃ c rest, l = c :: rest ∧ c.isDigit = true := by
  unfold numCore at h
  obtain ⟨m1, h1, h2⟩ := cat_mem_elim h
  obtain ⟨-, hlen, c, rest, rfl, hc⟩ := reMatches_plus_mem h1
  refine ⟨lt_of_le_of_lt (reMatches_rem_length _ h2) hlen, c, rest, rfl, hc⟩

theorem ipNum_mem {l : List Char} {caps : Caps} {m : List Char × Caps}
    (h : m ∈ reMatches ipNum l caps) :
    m.1.length < l.length ∧ ∃ c rest, l = c :: rest ∧ c.isDigit = true := by
  unfold ipNum at h
  obtain ⟨m1, h1, h2⟩ := cat_mem_elim h
  obtain ⟨hlen, c, rest, rfl, hc⟩ := numCore_mem h1
  exact ⟨lt_of_le_of_lt (reMatches_rem_length _ h2) hlen, c, rest, rfl, hc⟩

/-- Any match of the issue-price pattern binds group 1 to a capture
containing a digit. -/
theorem issuePrice_capture {l : List Char} {m : List Char × Caps}
    (h : m ∈ reMatches issuePriceRE l []) :
    ∃ cap, m.2.lookup 1 = some cap ∧ ∃ d ∈ cap, d.isDigit = true := by
  unfold issuePriceRE at h
  obtain ⟨m1, h1, h2⟩ := cat_mem_elim h
  obtain ⟨m2, h3, rfl⟩ := grp_mem_elim h2
  obtain ⟨hlen, c, rest, hml, hc⟩ := ipNum_mem h3
  refine ⟨m1.1.take (m1.1.length - m2.1.length), by simp, ?_⟩
  refine ⟨c, ?_, hc⟩
  rw [hml]
  have hk : 1 ≤ m1.1.length - m2.1.length := by
    rw [hml] at hlen ⊢
    simp only [List.length_cons] at hlen ⊢
    omega
  obtain ⟨j, hj⟩ : ∃ j, m1.1.length - m2.1.length = j + 1 :=
    ⟨m1.1.length - m2.1.length - 1, by omega⟩
  rw [hml] at hj
  rw [hj, List.take_succ_cons]
  exact List.mem_cons_self c _

/-- Any match of the amount pattern binds group 1 to a capture
containing a digit. -/
theorem amount_capture {l : List Char} {m : List Char × Caps}
    (h : m ∈ reMatches amountRE l []) :
    ∃ cap, m.2.lookup 1 = some cap ∧ ∃ d ∈ cap, d.isDigit = true := by
  unfold amountRE at h
  obtain ⟨m1, h1, h2⟩ := cat_mem_elim h
  obtain ⟨m2, h3, rfl⟩ := grp_mem_elim h1
  obtain ⟨hlen, c, rest, hml, hc⟩ := numCore_mem h3
  have hlook : m.2.lookup 1 = ((1, l.take (l.length - m2.1.length)) :: m2.2).lookup 1 := by
    refine reMatches_lookup_eq _ ?_ h2
    decide
  refine ⟨l.take (l.length - m2.1.length), by rw [hlook]; simp, ?_⟩
  refine ⟨c, ?_, hc⟩
  have hk : 1 ≤ l.length - m2.1.length := by
    rw [hml] at hlen ⊢
    simp only [List.length_cons] at hlen ⊢
    omega
  obtain ⟨j, hj⟩ : ∃ j, l.length - m2.1.length = j + 1 :=
    ⟨l.length - m2.1.length - 1, by omega⟩
  rw [hml] at hj
  rw [hml, hj, List.take_succ_cons]
  exact List.mem_cons_self c _

/-! ### Matches exist wherever a digit starts -/

theorem numCore_mem_intro {d : Char} {rest : List Char} {caps : Caps}
    (hd : d.isDigit = true) : (rest, caps) ∈ reMatches numCore (d :: rest) caps := by
  unfold numCore
  exact cat_mem_intro (plus_mem_head hd) null_opt

theorem ipNum_mem_intro {d : Char} {rest : List Char} {caps : Caps}
    (hd : d.isDigit = true) : (rest, caps) ∈ reMatches ipNum (d :: rest) caps := by
  unfold ipNum
  exact cat_mem_intro (numCore_mem_intro hd) null_opt

theorem issuePrice_ne_nil_of_digit {d : Char} {rest : List Char}
    (hd : d.isDigit = true) : reMatches issuePriceRE (d :: rest) [] ≠ [] := by
  unfold issuePriceRE
  exact List.ne_nil_of_mem (cat_mem_intro null_ipPre (grp_mem_intro (ipNum_mem_intro hd)))

theorem amount_ne_nil_of_digit {d : Char} {rest : List Char}
    (hd : d.isDigit = true) : reMatches amountRE (d :: rest) [] ≠ [] := by
  unfold amountRE
  exact List.ne_nil_of_mem (cat_mem_intro (grp_mem_intro (numCore_mem_intro hd)) null_opt)

theorem cat_eq_nil {r1 r2 : RE} {l : List Char} {caps : Caps}
    (h : reMatches r1 l caps = []) : reMatches (.cat r1 r2) l caps = [] := by
  show (reMatches r1 l caps).flatMap _ = []
  rw [h]
  rfl

theorem grp_eq_nil {i : Nat} {r : RE} {l : List Char} {caps : Caps}
    (h : reMatches r l caps = []) : reMatches (.grp i r) l caps = [] := by
  show (reMatches r l caps).map _ = []
  rw [h]
  rfl

/-- The amount pattern needs a digit: without one, no position matches. -/
theorem amount_nil_of_no_digit {l : List Char} {caps : Caps}
    (h : ∀ c ∈ l, c.isDigit = false) : reMatches amountRE l caps = [] := by
  have hplus : reMatches (.plus digitCls) l caps = [] := by
    cases l with
    | nil => simp [reMatches]
    | cons c rest =>
      have := h c (List.mem_cons_self c rest)
      simp only [reMatches]
      rw [List.takeWhile_cons_of_neg (by simp [digitCls, this])]
      simp
  unfold amountRE numCore
  apply cat_eq_nil
  apply grp_eq_nil
  exact cat_eq_nil hplus

/-! ### Soundness of the scanners -/

theorem finditerAux_succ (r : RE) (fuel : Nat) (l : List Char) :
    finditerAux r (fuel + 1) l =
      match reMatches r l [] with
      | [] =>
        match l with
        | [] => []
        | _ :: rest => finditerAux r fuel rest
      | (rem, caps) :: _ =>
        if rem.length < l.length then caps :: finditerAux r fuel rem
        else
          match l with
          | [] => [caps]
          | _ :: rest => caps :: finditerAux r fuel rest := rfl

theorem reSearchAux_succ (r : RE) (fuel : Nat) (l : List Char) :
    reSearchAux r (fuel + 1) l =
      match reMatches r l [] with
      | m :: _ => some m
      | [] =>
        match l with
        | [] => none
        | _ :: rest => reSearchAux r fuel rest := rfl

theorem head_match_sound {r : RE} {l rem : List Char} {caps : Caps}
    {tail : List (List Char × Caps)}
    (hm : reMatches r l [] = (rem, caps) :: tail) :
    ∃ l' rem', (rem', caps) ∈ reMatches r l' [] :=
  ⟨l, rem, by rw [hm]; exact List.mem_cons_self _ _⟩

theorem finditerAux_sound {r : RE} :
    ∀ (fuel : Nat) (l : List Char) {caps : Caps},
      caps ∈ finditerAux r fuel l → ∃ l' rem, (rem, caps) ∈ reMatches r l' []
  | 0, l, caps, h => by simp [finditerAux] at h
  | fuel + 1, l, caps, h => by
    rw [finditerAux_succ] at h
    split at h
    · split at h
      · exact absurd h (List.not_mem_nil caps)
      · exact finditerAux_sound fuel _ h
    · rename_i rem0 caps0 tail hm
      split at h
      · rcases List.mem_cons.mp h with rfl | h
        · exact head_match_sound hm
        · exact finditerAux_sound fuel rem0 h
      · split at h
        · simp only [List.mem_singleton] at h
          subst h
          exact head_match_sound hm
        · rcases List.mem_cons.mp h with rfl | h
          · exact head_match_sound hm
          · exact finditerAux_sound fuel _ h

theorem finditerAux_issue_ne_nil :
    ∀ (fuel : Nat) (l : List Char), l.length < fuel →
      (∃ c ∈ l, c.isDigit = true) → finditerAux issuePriceRE fuel l ≠ []
  | 0, l, hf, _ => absurd hf (by omega)
  | fuel + 1, l, hf, ⟨c, hc, hcd⟩ => by
    rw [finditerAux_succ]
    split
    · rename_i hm
      split
      · exact absurd hc (List.not_mem_nil c)
      · rename_i d rest
        rcases List.mem_cons.mp hc with rfl | hcr
        · exact absurd hm (issuePrice_ne_nil_of_digit hcd)
        · have hrest : rest.length < fuel := by
            simp only [List.length_cons] at hf
            omega
          exact finditerAux_issue_ne_nil fuel rest hrest ⟨c, hcr, hcd⟩
    · rename_i rem0 caps0 tail hm
      split
      · exact List.cons_ne_nil _ _
      · split
        · exact List.cons_ne_nil _ _
        · exact List.cons_ne_nil _ _

theorem reSearchAux_sound {r : RE} :
    ∀ (fuel : Nat) (l : List Char) {m : List Char × Caps},
      reSearchAux r fuel l = some m → ∃ l', m ∈ reMatches r l' []
  | 0, l, m, h => by simp [reSearchAux] at h
  | fuel + 1, l, m, h => by
    rw [reSearchAux_succ] at h
    cases hm : reMatches r l [] with
    | cons m0 tail =>
      rw [hm] at h
      obtain rfl : m0 = m := Option.some.inj h
      exact ⟨l, by rw [hm]; exact List.mem_cons_self _ _⟩
    | nil =>
      rw [hm] at h
      cases l with
      | nil => simp at h
      | cons c rest => exact reSearchAux_sound fuel rest h

theorem reSearchAux_amount_none :
    ∀ (fuel : Nat) (l : List Char), (∀ c ∈ l, c.isDigit = false) →
      reSearchAux amountRE fuel l = none
  | 0, _, _ => rfl
  | fuel + 1, l, h => by
    rw [reSearchAux_succ, amount_nil_of_no_digit h]
    cases l with
    | nil => rfl
    | cons c rest =>
      exact reSearchAux_amount_none fuel rest fun d hd => h d (List.mem_cons_of_mem c hd)

theorem reSearchAux_amount_some :
    ∀ (fuel : Nat) (l : List Char), l.length < fuel →
      (∃ c ∈ l, c.isDigit = true) → ∃ m, reSearchAux amountRE fuel l = some m
  | 0, l, hf, _ => absurd hf (by omega)
  | fuel + 1, l, hf, ⟨c, hc, hcd⟩ => by
    rw [reSearchAux_succ]
    cases hm : reMatches amountRE l [] with
    | cons m0 tail => exact ⟨m0, rfl⟩
    | nil =>
      cases l with
      | nil => exact absurd hc (List.not_mem_nil c)
      | cons d rest =>
        rcases List.mem_cons.mp hc with rfl | hcr
        · exact absurd hm (amount_ne_nil_of_digit hcd)
        · have hrest : rest.length < fuel := by
            simp only [List.length_cons] at hf
            omega
          exact reSearchAux_amount_some fuel rest hrest ⟨c, hcr, hcd⟩

/-! ### `find_all` characterization -/

theorem mem_enum_of_mem {α : Type} :
    ∀ {l : List α} {t : α}, t ∈ l → ∃ i, (i, t) ∈ l.enum
  | [], t, h => absurd h (List.not_mem_nil t)
  | x :: xs, t, h => by
    rw [List.enum_cons' x xs]
    rcases List.mem_cons.mp h with rfl | h
    · exact ⟨0, List.mem_cons_self _ _⟩
    · obtain ⟨i, hi⟩ := mem_enum_of_mem h
      exact ⟨i + 1, List.mem_cons_of_mem _ (List.mem_map.mpr ⟨(i, t), hi, rfl⟩)⟩

theorem mem_find_all_eliminate {r : RE} {pages : List String} {vp : String × Nat}
    (h : vp ∈ find_all r pages) :
    ∃ l' rem caps, (rem, caps) ∈ reMatches r l' [] ∧
      vp.1 = normalize_spaces (String.mk (stripWS ((caps.lookup 1).getD []))) := by
  unfold find_all at h
  rw [List.mem_flatMap] at h
  obtain ⟨ip, hip, h⟩ := h
  rw [List.mem_map] at h
  obtain ⟨caps, hcaps, heq⟩ := h
  obtain ⟨l', rem, hm⟩ := finditerAux_sound _ _ hcaps
  exact ⟨l', rem, caps, hm, by rw [← heq]⟩

theorem find_all_issue_ne_nil {pages : List String}
    (h : ∃ t ∈ pages, ∃ c ∈ t.data, c.isDigit = true) :
    find_all issuePriceRE pages ≠ [] := by
  obtain ⟨t, ht, hdig⟩ := h
  obtain ⟨i, hi⟩ := mem_enum_of_mem ht
  have hfi : finditer issuePriceRE t.data ≠ [] :=
    finditerAux_issue_ne_nil _ _ (by omega) hdig
  obtain ⟨caps, hcaps⟩ := List.exists_mem_of_ne_nil _ hfi
  have hmem2 : (normalize_spaces (String.mk (stripWS ((caps.lookup 1).getD []))), i + 1) ∈
      find_all issuePriceRE pages := by
    unfold find_all
    rw [List.mem_flatMap]
    exact ⟨(i, t), hi, List.mem_map.mpr ⟨caps, hcaps, rfl⟩⟩
  exact List.ne_nil_of_mem hmem2

/-! ### Digits survive stripping and normalization -/

theorem mem_dropWhile_of_neg {p : Char → Bool} {c : Char} :
    ∀ {l : List Char}, c ∈ l → p c = false → c ∈ l.dropWhile p
  | [], h, _ => absurd h (List.not_mem_nil c)
  | d :: rest, h, hc => by
    by_cases hd : p d = true
    · rw [List.dropWhile_cons_of_pos hd]
      rcases List.mem_cons.mp h with rfl | h
      · rw [hd] at hc
        exact absurd hc (by simp)
      · exact mem_dropWhile_of_neg h hc
    · rwa [List.dropWhile_cons_of_neg (by simpa using hd)]

theorem mem_stripWS_of_neg {c : Char} {l : List Char} (h : c ∈ l)
    (hc : pyIsSpace c = false) : c ∈ stripWS l := by
  unfold stripWS List.rdropWhile
  rw [List.mem_reverse]
  apply mem_dropWhile_of_neg _ hc
  rw [List.mem_reverse]
  exact mem_dropWhile_of_neg h hc

theorem mem_collapseWS_of_neg {c : Char} :
    ∀ (l : List Char) (b : Bool), c ∈ l → pyIsSpace c = false → c ∈ collapseWS b l
  | [], _, h, _ => absurd h (List.not_mem_nil c)
  | d :: rest, b, h, hc => by
    by_cases hd : pyIsSpace d = true
    · have hne : c ≠ d := by
        intro he
        rw [he, hd] at hc
        exact absurd hc (by simp)
      have hcr : c ∈ rest := by
        rcases List.mem_cons.mp h with rfl | h
        · exact absurd rfl hne
        · exact h
      cases b with
      | false =>
        rw [show collapseWS false (d :: rest) = ' ' :: collapseWS true rest from by
          simp [collapseWS, hd]]
        exact List.mem_cons_of_mem _ (mem_collapseWS_of_neg rest true hcr hc)
      | true =>
        rw [show collapseWS true (d :: rest) = collapseWS true rest from by
          simp [collapseWS, hd]]
        exact mem_collapseWS_of_neg rest true hcr hc
    · rw [show collapseWS b (d :: rest) = d :: collapseWS false rest from by
        cases b <;> simp [collapseWS, hd]]
      rcases List.mem_cons.mp h with rfl | hcr
      · exact List.mem_cons_self _ _
      · exact List.mem_cons_of_mem _ (mem_collapseWS_of_neg rest false hcr hc)

theorem mem_normalize_of_digit {c : Char} {s : String} (h : c ∈ s.data)
    (hc : c.isDigit = true) : c ∈ (normalize_spaces s).data := by
  show c ∈ stripWS (collapseWS false s.data)
  exact mem_stripWS_of_neg
    (mem_collapseWS_of_neg s.data false h (pyIsSpace_eq_false_of_isDigit hc))
    (pyIsSpace_eq_false_of_isDigit hc)

theorem na_no_digit : ∀ c ∈ ("N/A" : String).data, c.isDigit = false := by decide

theorem ne_na_of_digit {v : String} (h : ∃ d ∈ v.data, d.isDigit = true) :
    v ≠ "N/A" := by
  intro he
  obtain ⟨d, hd, hdd⟩ := h
  rw [he] at hd
  rw [na_no_digit d hd] at hdd
  exact absurd hdd (by simp)

theorem find_all_issue_value_digit {pages : List String} {vp : String × Nat}
    (h : vp ∈ find_all issuePriceRE pages) : ∃ d ∈ vp.1.data, d.isDigit = true := by
  obtain ⟨l', rem, caps, hm, hv⟩ := mem_find_all_eliminate h
  obtain ⟨cap, hlook, d, hd, hdd⟩ := issuePrice_capture hm
  rw [hv]
  refine ⟨d, ?_, hdd⟩
  apply mem_normalize_of_digit _ hdd
  show d ∈ stripWS ((caps.lookup 1).getD [])
  rw [hlook]
  exact mem_stripWS_of_neg hd (pyIsSpace_eq_false_of_isDigit hdd)

/-! ### `cleanAmount` and digits -/

theorem stripWS_eq_self {l : List Char} (h : ∀ c ∈ l, pyIsSpace c = false) :
    stripWS l = l := by
  unfold stripWS
  have h1 : l.dropWhile pyIsSpace = l := by
    cases l with
    | nil => rfl
    | cons c rest =>
      exact List.dropWhile_cons_of_neg (by simp [h c (List.mem_cons_self c rest)])
  rw [h1, List.rdropWhile_eq_self_iff]
  intro hne
  simp [h (l.getLast hne) (List.getLast_mem hne)]

theorem map_fix {f : Char → Char} : ∀ {l : List Char}, (∀ c ∈ l, f c = c) → l.map f = l
  | [], _ => rfl
  | c :: rest, h => by
    rw [List.map_cons, h c (List.mem_cons_self c rest),
      map_fix fun d hd => h d (List.mem_cons_of_mem c hd)]

theorem removeSubAux_subset {pat : List Char} :
    ∀ (fuel : Nat) (l : List Char) {c : Char}, c ∈ removeSubAux pat fuel l → c ∈ l
  | 0, l, c, h => h
  | _ + 1, [], c, h => h
  | fuel + 1, d :: rest, c, h => by
    rw [removeSubAux] at h
    split at h
    · exact (List.drop_subset _ _) (removeSubAux_subset fuel _ h)
    · rcases List.mem_cons.mp h with rfl | h
      · exact List.mem_cons_self _ _
      · exact List.mem_cons_of_mem _ (removeSubAux_subset fuel _ h)

theorem removeSubAux_id {p0 : Char} {pt : List Char} :
    ∀ (fuel : Nat) (l : List Char), p0 ∉ l → removeSubAux (p0 :: pt) fuel l = l
  | 0, l, _ => rfl
  | _ + 1, [], _ => rfl
  | fuel + 1, d :: rest, h => by
    rw [removeSubAux]
    have hpre : (p0 :: pt).isPrefixOf (d :: rest) = false := by
      have hd : p0 ≠ d := fun he => h (he ▸ List.mem_cons_self d rest)
      simp [List.isPrefixOf, hd]
    rw [hpre]
    simp only [Bool.false_eq_true, if_false]
    rw [removeSubAux_id fuel rest fun hm => h (List.mem_cons_of_mem d hm)]

theorem removeSubAux_mem {pat : List Char} :
    ∀ (fuel : Nat) (l : List Char) {c : Char}, c ∈ l → c ∉ pat →
      c ∈ removeSubAux pat fuel l
  | 0, l, c, hc, _ => hc
  | _ + 1, [], c, hc, _ => hc
  | fuel + 1, d :: rest, c, hc, hcp => by
    rw [removeSubAux]
    split
    · rename_i hpre
      apply removeSubAux_mem fuel _ _ hcp
      have hp : pat <+: d :: rest := by
        rwa [← List.isPrefixOf_iff_prefix]
      obtain ⟨t, ht⟩ := hp
      have hsplit : List.drop pat.length (d :: rest) = t := by
        rw [← ht, List.drop_left]
      rw [hsplit]
      rw [← ht] at hc
      rcases List.mem_append.mp hc with h | h
      · exact absurd h hcp
      · exact h
    · rcases List.mem_cons.mp hc with rfl | h
      · exact List.mem_cons_self _ _
      · exact List.mem_cons_of_mem _ (removeSubAux_mem fuel rest h hcp)

theorem toNat_ofNat_add32 {c : Char} (h1 : 65 ≤ c.toNat) (h2 : c.toNat ≤ 90) :
    (Char.ofNat (c.toNat + 32)).toNat = c.toNat + 32 := by
  have he : c.val.toNat = c.toNat := rfl
  have hv : (c.val.toNat + 32).isValidChar := by
    left
    show c.val.toNat + 32 < 55296
    omega
  simp [Char.ofNat, Char.toNat, Char.ofNatAux]
  rw [dif_pos hv]
  simp [UInt32.toNat, BitVec.toNat_ofNatLt]

theorem toLower_isDigit {c : Char} (h : c.toLower.isDigit = true) : c.isDigit = true := by
  simp only [Char.toLower] at h
  split at h
  · rename_i hc
    obtain ⟨h1, h2⟩ := isDigit_toNat h
    rw [toNat_ofNat_add32 hc.1 hc.2] at h1 h2
    omega
  · exact h

/-- Characters of `cleanAmount l` before the final strip come from `l`
through lowercasing and dash unification. -/
theorem mem_cleanAmount {c : Char} {l : List Char} (h : c ∈ cleanAmount l) :
    ∃ c0 ∈ l, c = (if c0.toLower == '–' || c0.toLower == '—' then '-' else c0.toLower) := by
  unfold cleanAmount at h
  have h1 := mem_of_mem_stripWS h
  rw [List.mem_map] at h1
  obtain ⟨c1, hc1, rfl⟩ := h1
  rw [List.mem_map] at hc1
  obtain ⟨c0, hc0, rfl⟩ := hc1
  refine ⟨c0, ?_, rfl⟩
  have h2 := List.mem_of_mem_filter hc0
  have h3 := removeSubAux_subset _ _ h2
  have h4 := removeSubAux_subset _ _ h3
  have h5 := List.mem_of_mem_filter h4
  have h6 := mem_of_mem_stripWS h5
  exact List.mem_of_mem_filter h6

theorem cleanAmount_no_digit {l : List Char} (h : ∀ c ∈ l, c.isDigit = false) :
    ∀ c ∈ cleanAmount l, c.isDigit = false := by
  intro c hc
  obtain ⟨c0, hc0, rfl⟩ := mem_cleanAmount hc
  by_cases hd : (c0.toLower == '–' || c0.toLower == '—') = true
  · rw [if_pos hd]
    decide
  · rw [if_neg hd]
    by_contra hcon
    have hdig : c0.toLower.isDigit = true := by
      revert hcon
      cases c0.toLower.isDigit <;> simp
    have hc0d := h c0 hc0
    rw [toLower_isDigit hdig] at hc0d
    exact absurd hc0d (by simp)

theorem digit_not_special {d : Char} (hd : d.isDigit = true) :
    d ≠ '​' ∧ d ≠ '₹' ∧ d ∉ "Rs.".data ∧ d ∉ "INR".data ∧ d ≠ ',' ∧
      d.toLower = d ∧ (d == '–' || d == '—') = false := by
  obtain ⟨h1, h2⟩ := isDigit_toNat hd
  refine ⟨?_, ?_, ?_, ?_, ?_, toLower_eq_self_of_isDigit hd, ?_⟩
  · intro he
    rw [he] at h2
    revert h2
    decide
  · intro he
    rw [he] at h2
    revert h2
    decide
  · intro he
    have he' : d = 'R' ∨ d = 's' ∨ d = '.' := by
      have hm : d ∈ ['R', 's', '.'] := he
      simpa using hm
    rcases he' with rfl | rfl | rfl
    all_goals revert h1 h2
    all_goals decide
  · intro he
    have he' : d = 'I' ∨ d = 'N' ∨ d = 'R' := by
      have hm : d ∈ ['I', 'N', 'R'] := he
      simpa using hm
    rcases he' with rfl | rfl | rfl
    all_goals revert h1 h2
    all_goals decide
  · intro he
    rw [he] at h1
    revert h1
    decide
  · have : d ≠ '–' ∧ d ≠ '—' := by
      constructor
      all_goals intro he
      all_goals rw [he] at h2
      all_goals revert h2
      all_goals decide
    simp [this.1, this.2]

theorem cleanAmount_digit {l : List Char} (h : ∃ d ∈ l, d.isDigit = true) :
    ∃ d ∈ cleanAmount l, d.isDigit = true := by
  obtain ⟨d, hd, hdd⟩ := h
  obtain ⟨hz, hr, hrs, hinr, hcom, hlow, hdash⟩ := digit_not_special hdd
  refine ⟨d, ?_, hdd⟩
  unfold cleanAmount
  have hws := pyIsSpace_eq_false_of_isDigit hdd
  apply mem_stripWS_of_neg _ hws
  apply List.mem_map.mpr
  refine ⟨d, ?_, by simp [hdash]⟩
  apply List.mem_map.mpr
  refine ⟨d, ?_, hlow⟩
  apply List.mem_filter.mpr
  refine ⟨?_, by simp [hcom]⟩
  apply removeSubAux_mem _ _ _ hinr
  apply removeSubAux_mem _ _ _ hrs
  apply List.mem_filter.mpr
  refine ⟨?_, by simp [hr]⟩
  apply mem_stripWS_of_neg _ hws
  exact List.mem_filter.mpr ⟨hd, by simp [hz]⟩

theorem cleanAmount_id {l : List Char}
    (h : ∀ c ∈ l, c.isDigit = true ∨ c = '-') : cleanAmount l = l := by
  have hchars : ∀ c ∈ l, pyIsSpace c = false ∧ c ≠ '​' ∧ c ≠ '₹' ∧ 'R' ≠ c ∧
      'I' ≠ c ∧ c ≠ ',' ∧ c.toLower = c ∧ (c == '–' || c == '—') = false := by
    intro c hc
    rcases h c hc with hd | rfl
    · obtain ⟨hz, hr, hrs, hinr, hcom, hlow, hdash⟩ := digit_not_special hd
      exact ⟨pyIsSpace_eq_false_of_isDigit hd, hz, hr,
        fun he => hrs (by rw [← he]; exact List.mem_cons_self _ _),
        fun he => hinr (by rw [← he]; exact List.mem_cons_self _ _), hcom, hlow, hdash⟩
    · refine ⟨by decide, by decide, by decide, by decide, by decide, by decide,
        by decide, by decide⟩
  unfold cleanAmount
  dsimp only
  have e1 : l.filter (fun c => c != '​') = l :=
    List.filter_eq_self.mpr fun c hc => by simp [(hchars c hc).2.1]
  rw [e1]
  have e2 : stripWS l = l := stripWS_eq_self fun c hc => (hchars c hc).1
  rw [e2]
  have e3 : l.filter (fun c => c != '₹') = l :=
    List.filter_eq_self.mpr fun c hc => by simp [(hchars c hc).2.2.1]
  rw [e3]
  have e4 : removeSub "Rs.".data l = l :=
    removeSubAux_id _ _ fun hm => (hchars 'R' hm).2.2.2.1 rfl
  rw [e4]
  have e5 : removeSub "INR".data l = l :=
    removeSubAux_id _ _ fun hm => (hchars 'I' hm).2.2.2.2.1 rfl
  rw [e5]
  have e6 : l.filter (fun c => c != ',') = l :=
    List.filter_eq_self.mpr fun c hc => by simp [(hchars c hc).2.2.2.2.2.1]
  rw [e6]
  have e7 : l.map Char.toLower = l := map_fix fun c hc => (hchars c hc).2.2.2.2.2.2.1
  rw [e7]
  have e8 : (l.map fun c => if c == '–' || c == '—' then '-' else c) = l :=
    map_fix fun c hc => by simp [(hchars c hc).2.2.2.2.2.2.2]
  rw [e8]
  exact e2

/-! ### `parse_amount` branch equations -/

theorem parse_amount_eq (s : String) (hs : s ≠ "") :
    parse_amount s =
      match reSearch amountRE (cleanAmount s.data) with
      | some m =>
        String.mk (stripWS (((m.2.lookup 1).getD []) ++
          (if (m.2.lookup 3).getD [] = [] then [] else ' ' :: (m.2.lookup 3).getD [])))
      | none => String.mk (cleanAmount s.data) := by
  unfold parse_amount
  rw [if_neg hs]

theorem parse_amount_no_digit {s : String} (hs : s ≠ "")
    (h : ∀ c ∈ s.data, c.isDigit = false) :
    parse_amount s = String.mk (cleanAmount s.data) := by
  rw [parse_amount_eq s hs]
  rw [show reSearch amountRE (cleanAmount s.data) = none from
    reSearchAux_amount_none _ _ (cleanAmount_no_digit h)]

theorem parse_amount_digit_ne_na {v : String} (hd : ∃ d ∈ v.data, d.isDigit = true) :
    parse_amount v ≠ "N/A" := by
  have hv : v ≠ "" := by
    obtain ⟨d, hd1, -⟩ := hd
    intro he
    rw [he] at hd1
    exact absurd hd1 (List.not_mem_nil d)
  rw [parse_amount_eq v hv]
  have hdc := cleanAmount_digit hd
  obtain ⟨m, hm⟩ :=
    reSearchAux_amount_some ((cleanAmount v.data).length + 1) _ (by omega) hdc
  rw [show reSearch amountRE (cleanAmount v.data) = some m from hm]
  obtain ⟨l', hmem⟩ := reSearchAux_sound _ _ hm
  obtain ⟨cap, hlook, e, he, hed⟩ := amount_capture hmem
  apply ne_na_of_digit
  refine ⟨e, ?_, hed⟩
  show e ∈ stripWS _
  apply mem_stripWS_of_neg _ (pyIsSpace_eq_false_of_isDigit hed)
  apply List.mem_append_left
  rw [hlook]
  exact he

/-! ### Head-of-match computation for the amount pattern on a range -/

theorem lit_nil_matches {ci : Bool} {s l : List Char} {caps : Caps}
    (h : litPrefix ci s l = false) : reMatches (.lit ci s) l caps = [] := by
  simp [reMatches, h]

theorem star_of_head_neg {p : Char → Bool} {l : List Char} {caps : Caps}
    (h : l.takeWhile p = []) : reMatches (.star p) l caps = [(l, caps)] := by
  show (List.range ((l.takeWhile p).length + 1)).reverse.map _ = _
  rw [h]
  simp only [List.length_nil, Nat.zero_add]
  rw [show List.range 1 = [0] from rfl]
  simp

theorem opt_of_nil {r : RE} {l : List Char} {caps : Caps}
    (h : reMatches r l caps = []) : reMatches (.opt r) l caps = [(l, caps)] := by
  show reMatches r l caps ++ _ = _
  rw [h]
  rfl

theorem alt_of_nil {r1 r2 : RE} {l : List Char} {caps : Caps}
    (h1 : reMatches r1 l caps = []) (h2 : reMatches r2 l caps = []) :
    reMatches (.alt r1 r2) l caps = [] := by
  show reMatches r1 l caps ++ reMatches r2 l caps = []
  rw [h1, h2]
  rfl

theorem cat_head {r1 r2 : RE} {l : List Char} {caps : Caps}
    {x y : List Char × Caps} {xs ys : List (List Char × Caps)}
    (h1 : reMatches r1 l caps = x :: xs) (h2 : reMatches r2 x.1 x.2 = y :: ys) :
    ∃ rest, reMatches (.cat r1 r2) l caps = y :: rest := by
  refine ⟨ys ++ xs.flatMap (fun m => reMatches r2 m.1 m.2), ?_⟩
  show (reMatches r1 l caps).flatMap _ = _
  rw [h1, List.flatMap_cons, h2]
  rfl

theorem cat_single_nil {r1 r2 : RE} {l : List Char} {caps : Caps}
    {x : List Char × Caps} (h1 : reMatches r1 l caps = [x])
    (h2 : reMatches r2 x.1 x.2 = []) : reMatches (.cat r1 r2) l caps = [] := by
  show (reMatches r1 l caps).flatMap _ = _
  rw [h1, List.flatMap_cons, h2]
  rfl

theorem grp_head {i : Nat} {r : RE} {l : List Char} {caps : Caps}
    {x : List Char × Caps} {xs : List (List Char × Caps)}
    (h : reMatches r l caps = x :: xs) :
    ∃ rest, reMatches (.grp i r) l caps =
      (x.1, (i, l.take (l.length - x.1.length)) :: x.2) :: rest := by
  refine ⟨xs.map (fun m => (m.1, (i, l.take (l.length - m.1.length)) :: m.2)), ?_⟩
  show (reMatches r l caps).map _ = _
  rw [h, List.map_cons]

theorem plus_head_max {p : Char → Bool} {l : List Char} {caps : Caps} {n : Nat}
    (h : (l.takeWhile p).length = n + 1) :
    ∃ rest, reMatches (.plus p) l caps = (l.drop (n + 1), caps) :: rest := by
  refine ⟨(List.range n).reverse.map (fun k => (l.drop (k + 1), caps)), ?_⟩
  show (List.range (l.takeWhile p).length).reverse.map _ = _
  rw [h, List.range_succ, List.reverse_append]
  simp

theorem amount_search_range {a b : List Char} (ha : a ≠ [])
    (had : ∀ c ∈ a, c.isDigit = true) (hbd : ∀ c ∈ b, c.isDigit = true) :
    ∃ tail, reMatches amountRE (a ++ '-' :: b) [] =
      (('-' :: b, [(1, a)]) : List Char × Caps) :: tail := by
  have htw : (a ++ '-' :: b).takeWhile digitCls = a := by
    rw [List.takeWhile_append_of_pos (by intro c hc; exact had c hc)]
    rw [List.takeWhile_cons_of_neg (by decide)]
    rw [List.append_nil]
  obtain ⟨n, hn⟩ : ∃ n, a.length = n + 1 := by
    cases a with
    | nil => exact absurd rfl ha
    | cons x xs => exact ⟨xs.length, rfl⟩
  have hlen : ((a ++ '-' :: b).takeWhile digitCls).length = n + 1 := by rw [htw, hn]
  have hplus0 : ∃ rest, reMatches (.plus digitCls) (a ++ '-' :: b) ([] : Caps) =
      ((a ++ '-' :: b).drop (n + 1), ([] : Caps)) :: rest := plus_head_max hlen
  obtain ⟨rest1, hplus⟩ := hplus0
  have hdrop : (a ++ '-' :: b).drop (n + 1) = '-' :: b := by
    rw [← hn, List.drop_left]
  rw [hdrop] at hplus
  have hfrac : reMatches (.opt (.cat (.lit false ['.']) (.plus digitCls)))
      ('-' :: b) ([] : Caps) = [('-' :: b, [])] := by
    apply opt_of_nil
    apply cat_eq_nil
    apply lit_nil_matches
    rfl
  have hnum : ∃ rest, reMatches numCore (a ++ '-' :: b) ([] : Caps) =
      (('-' :: b, []) : List Char × Caps) :: rest := by
    unfold numCore
    exact cat_head hplus hfrac
  obtain ⟨rest2, hnum⟩ := hnum
  have hgrp0 : ∃ rest, reMatches (.grp 1 numCore) (a ++ '-' :: b) ([] : Caps) =
      ('-' :: b, (1, (a ++ '-' :: b).take ((a ++ '-' :: b).length - ('-' :: b).length)) ::
        ([] : Caps)) :: rest := grp_head hnum
  obtain ⟨rest3, hgrp⟩ := hgrp0
  have htake : (a ++ '-' :: b).take ((a ++ '-' :: b).length - ('-' :: b).length) = a := by
    have : (a ++ '-' :: b).length - ('-' :: b).length = a.length := by
      rw [List.length_append]
      omega
    rw [this, List.take_left]
  rw [htake] at hgrp
  have hstarws : reMatches (.star pyIsSpace) ('-' :: b) ([(1, a)] : Caps) =
      [('-' :: b, [(1, a)])] := by
    apply star_of_head_neg
    rw [List.takeWhile_cons_of_neg (by decide)]
  have hunits : reMatches unitAlt ('-' :: b) ([(1, a)] : Caps) = [] := by
    unfold unitAlt
    refine alt_of_nil (lit_nil_matches ?_) (alt_of_nil (lit_nil_matches ?_)
      (alt_of_nil (lit_nil_matches ?_) (alt_of_nil (lit_nil_matches ?_)
        (alt_of_nil (lit_nil_matches ?_) (lit_nil_matches ?_)))))
    all_goals rfl
  have htail : reMatches (.opt (.grp 2 (.cat (.star pyIsSpace) (.grp 3 unitAlt))))
      ('-' :: b) ([(1, a)] : Caps) = [('-' :: b, [(1, a)])] := by
    apply opt_of_nil
    apply grp_eq_nil
    exact cat_single_nil hstarws (grp_eq_nil hunits)
  unfold amountRE
  exact cat_head hgrp htail

theorem reSearch_of_head {r : RE} {l : List Char} {m : List Char × Caps}
    {tail : List (List Char × Caps)} (h : reMatches r l [] = m :: tail) :
    reSearch r l = some m := by
  show reSearchAux r (l.length + 1) l = some m
  rw [reSearchAux_succ, h]

/-- `parse_amount` on a pure numeric range `a-b` returns the first
endpoint `a`, not the range. -/
theorem parse_amount_range {a b : List Char} (ha : a ≠ [])
    (had : ∀ c ∈ a, c.isDigit = true) (hbd : ∀ c ∈ b, c.isDigit = true) :
    parse_amount (String.mk (a ++ '-' :: b)) = String.mk a := by
  have hs : String.mk (a ++ '-' :: b) ≠ "" := by
    intro he
    have hdata : a ++ '-' :: b = [] := congrArg String.data he
    exact absurd hdata (by simp)
  rw [parse_amount_eq _ hs]
  have hclean : cleanAmount (String.mk (a ++ '-' :: b)).data = a ++ '-' :: b := by
    apply cleanAmount_id
    intro c hc
    rcases List.mem_append.mp hc with h | h
    · exact Or.inl (had c h)
    · rcases List.mem_cons.mp h with rfl | h
      · exact Or.inr rfl
      · exact Or.inl (hbd c h)
  rw [hclean]
  obtain ⟨tail, hsearch⟩ := amount_search_range ha had hbd
  rw [reSearch_of_head hsearch]
  show String.mk (stripWS (a ++ [])) = String.mk a
  rw [List.append_nil]
  rw [stripWS_eq_self fun c hc => pyIsSpace_eq_false_of_isDigit (had c hc)]

/-! ### Company-name trailing-punctuation stripping -/

theorem trailPunct_not_ws {c : Char} (h : trailPunct c = true) : pyIsSpace c = false := by
  have hc : (c = ',' ∨ c = '.') ∨ c = '-' := by
    simpa [trailPunct] using h
  rcases hc with (rfl | rfl) | rfl
  all_goals decide

theorem ws_not_trailPunct {c : Char} (h : pyIsSpace c = true) : trailPunct c = false := by
  cases ht : trailPunct c with
  | false => rfl
  | true =>
    rw [trailPunct_not_ws ht] at h
    exact absurd h (by simp)

/-- A maximal-run computation: `takeWhile` over `good ++ bad` where the
first list satisfies the predicate and the second starts with a failing
element (or is empty). -/
theorem takeWhile_run {q : Char → Bool} {good bad : List Char}
    (hg : ∀ c ∈ good, q c = true)
    (hb : ∀ c, bad.head? = some c → q c = false) :
    (good ++ bad).takeWhile q = good := by
  rw [List.takeWhile_append_of_pos hg]
  cases bad with
  | nil => rw [List.takeWhile_nil, List.append_nil]
  | cons c rest =>
    rw [List.takeWhile_cons_of_neg (by simp [hb c rfl]), List.append_nil]

theorem dropWhile_run {q : Char → Bool} {good bad : List Char}
    (hg : ∀ c ∈ good, q c = true)
    (hb : ∀ c, bad.head? = some c → q c = false) :
    (good ++ bad).dropWhile q = bad := by
  have h : (good ++ bad).takeWhile q ++ (good ++ bad).dropWhile q = good ++ bad := by
    simp
  rw [takeWhile_run hg hb] at h
  exact List.append_cancel_left h

theorem companyNameSub_strip {t w p : List Char} (hw : w ≠ [])
    (hws : ∀ c ∈ w, pyIsSpace c = true) (hp : p ≠ [])
    (hpp : ∀ c ∈ p, trailPunct c = true)
    (ht : ∀ c, t.getLast? = some c → pyIsSpace c = false) :
    companyNameSub (t ++ (w ++ p)) = t := by
  unfold companyNameSub
  have hrev : (t ++ (w ++ p)).reverse = p.reverse ++ (w.reverse ++ t.reverse) := by
    simp [List.reverse_append]
  rw [hrev]
  dsimp only
  have hwhead : ∀ c, (w.reverse ++ t.reverse).head? = some c → trailPunct c = false := by
    intro c hc
    cases hwr : w.reverse with
    | nil => exact absurd (by simpa using congrArg List.reverse hwr) hw
    | cons cw rw' =>
      rw [hwr, List.cons_append, List.head?_cons] at hc
      have hcc : cw = c := Option.some.inj hc
      have hcw : c ∈ w := by
        rw [← List.mem_reverse, hwr, ← hcc]
        exact List.mem_cons_self _ _
      exact ws_not_trailPunct (hws c hcw)
  have hthead : ∀ c, t.reverse.head? = some c → pyIsSpace c = false := by
    intro c hc
    rw [List.head?_reverse] at hc
    exact ht c hc
  have htake1 : (p.reverse ++ (w.reverse ++ t.reverse)).takeWhile trailPunct = p.reverse :=
    takeWhile_run (fun c hc => hpp c (List.mem_reverse.mp hc)) hwhead
  have hdrop1 : (p.reverse ++ (w.reverse ++ t.reverse)).dropWhile trailPunct =
      w.reverse ++ t.reverse :=
    dropWhile_run (fun c hc => hpp c (List.mem_reverse.mp hc)) hwhead
  have htake2 : (w.reverse ++ t.reverse).takeWhile pyIsSpace = w.reverse :=
    takeWhile_run (fun c hc => hws c (List.mem_reverse.mp hc)) hthead
  have hdrop2 : (w.reverse ++ t.reverse).dropWhile pyIsSpace = t.reverse :=
    dropWhile_run (fun c hc => hws c (List.mem_reverse.mp hc)) hthead
  rw [htake1, hdrop1, htake2, hdrop2]
  rw [if_neg]
  · rw [List.reverse_reverse]
  · simp [hp, hw]

/-! ### Resolver wrappers -/

theorem first_or_na_pages_eq :
    ∀ ms : List (String × Nat), (first_or_na ms).pages = sortedDedupNat (ms.map Prod.snd)
  | [] => rfl
  | (v, p) :: rest => rfl

theorem first_or_na_value_mem {ms : List (String × Nat)} (h : ms ≠ []) :
    (first_or_na ms).value ∈ ms.map Prod.fst := by
  cases ms with
  | nil => exact absurd rfl h
  | cons vp rest =>
    obtain ⟨v, p⟩ := vp
    show maxByLen v (rest.map Prod.fst) ∈ ((v, p) :: rest).map Prod.fst
    rw [List.map_cons]
    exact maxByLen_mem _ _

theorem first_or_na_value_longest {ms : List (String × Nat)} (h : ms ≠ []) :
    ∀ x ∈ ms.map Prod.fst, x.length ≤ (first_or_na ms).value.length := by
  cases ms with
  | nil => exact absurd rfl h
  | cons vp rest =>
    obtain ⟨v, p⟩ := vp
    obtain ⟨pre, post, heq, hle, hlt⟩ := maxByLen_split (rest.map Prod.fst) v
    intro x hx
    rw [List.map_cons] at hx
    exact hle x hx

theorem mem_pages_iff {ms : List (String × Nat)} {pg : Nat} :
    pg ∈ sortedDedupNat (ms.map Prod.snd) ↔ ∃ v, (v, pg) ∈ ms := by
  rw [mem_sortedDedupNat]
  constructor
  · intro h
    rw [List.mem_map] at h
    obtain ⟨⟨v, pg'⟩, hm, he⟩ := h
    exact ⟨v, by rwa [show pg' = pg from he] at hm⟩
  · intro ⟨v, hv⟩
    exact List.mem_map.mpr ⟨(v, pg), hv, rfl⟩

/-! ## The specification claims -/

theorem mem_values_iff {ms : List (String × Nat)} {v : String} :
    v ∈ ms.map Prod.fst ↔ ∃ pg, (v, pg) ∈ ms := by
  constructor
  · intro h
    rw [List.mem_map] at h
    obtain ⟨⟨v1, pg⟩, hm, he⟩ := h
    exact ⟨pg, by rwa [show v1 = v from he] at hm⟩
  · intro ⟨pg, hv⟩
    exact List.mem_map.mpr ⟨(v, pg), hv, rfl⟩

/-- C1: for every non-empty match list (given here as `(v0, p0) :: rest`),
the resolver's canonical value is the longest raw value, ties broken by
first occurrence in scan order: the value occurs in the list of raw
values, every raw value is no longer, and every raw value occurring
before it is strictly shorter.  This characterization determines the
value uniquely, so resolving the same match list in the same order
repeatedly always yields the same value (the resolver is a pure
function of the list). -/
theorem claim_C1_resolver_longest_first (v0 : String) (p0 : Nat)
    (rest : List (String × Nat)) :
    ∃ pre post,
      ((v0, p0) :: rest).map Prod.fst =
        pre ++ (first_or_na ((v0, p0) :: rest)).value :: post ∧
      (∀ x ∈ ((v0, p0) :: rest).map Prod.fst,
        x.length ≤ (first_or_na ((v0, p0) :: rest)).value.length) ∧
      (∀ x ∈ pre, x.length < (first_or_na ((v0, p0) :: rest)).value.length) ∧
      (∀ val2 : String,
        (∃ pre2 post2, ((v0, p0) :: rest).map Prod.fst = pre2 ++ val2 :: post2 ∧
          (∀ x ∈ ((v0, p0) :: rest).map Prod.fst, x.length ≤ val2.length) ∧
          (∀ x ∈ pre2, x.length < val2.length)) →
        val2 = (first_or_na ((v0, p0) :: rest)).value) := by
  obtain ⟨pre, post, heq, hle, hlt⟩ := maxByLen_split (rest.map Prod.fst) v0
  have hval : (first_or_na ((v0, p0) :: rest)).value = maxByLen v0 (rest.map Prod.fst) := rfl
  have hmap : ((v0, p0) :: rest).map Prod.fst = v0 :: rest.map Prod.fst := List.map_cons _ _ _
  refine ⟨pre, post, by rw [hval, hmap]; exact heq, ?_, ?_, ?_⟩
  · intro x hx
    rw [hval]
    rw [hmap] at hx
    exact hle x hx
  · intro x hx
    rw [hval]
    exact hlt x hx
  · intro val2 ⟨pre2, post2, heq2, hle2, hlt2⟩
    rw [hmap] at heq2 hle2
    rw [hval]
    exact longest_first_unique pre2 (v0 :: rest.map Prod.fst) post2 pre post val2
      (maxByLen v0 (rest.map Prod.fst)) heq2 heq hle2 hlt2 hle hlt

theorem claim_C1_witness :
    (first_or_na [("ab", 1), ("xyz", 2)]).value = "xyz" := by
  obtain ⟨pre, post, heq, hle, hlt, huniq⟩ :=
    claim_C1_resolver_longest_first "ab" 1 [("xyz", 2)]
  exact (huniq "xyz" ⟨["ab"], [], by decide, by decide, by decide⟩).symm

/-- C2: for every match list, the resolver's `pages` is sorted strictly
ascending (hence no duplicates), and contains exactly the page numbers
of all matches, regardless of which value each page contributed; the
same holds for the multi-value lead-managers handler acting on its
primary match list. -/
theorem claim_C2_pages_sorted_complete :
    (∀ ms : List (String × Nat),
      List.Sorted (· < ·) (first_or_na ms).pages ∧ (first_or_na ms).pages.Nodup ∧
      (∀ pg, pg ∈ (first_or_na ms).pages ↔ ∃ v, (v, pg) ∈ ms)) ∧
    (∀ brlm fallback : List (String × Nat), brlm ≠ [] →
      List.Sorted (· < ·) (lead_managers_resolve brlm fallback).pages ∧
      (lead_managers_resolve brlm fallback).pages.Nodup ∧
      (∀ pg, pg ∈ (lead_managers_resolve brlm fallback).pages ↔ ∃ v, (v, pg) ∈ brlm)) := by
  constructor
  · intro ms
    rw [first_or_na_pages_eq]
    exact ⟨sortedDedupNat_sorted _, sortedDedupNat_nodup _, fun pg => mem_pages_iff⟩
  · intro brlm fallback h
    cases brlm with
    | nil => exact absurd rfl h
    | cons vp rest =>
      have hpg : (lead_managers_resolve (vp :: rest) fallback).pages =
          sortedDedupNat (((vp :: rest)).map Prod.snd) := rfl
      rw [hpg]
      exact ⟨sortedDedupNat_sorted _, sortedDedupNat_nodup _, fun pg => mem_pages_iff⟩

theorem claim_C2_witness :
    List.Sorted (· < ·) (first_or_na [("a", 2), ("b", 1)]).pages ∧
    (2 ∈ (lead_managers_resolve [("a", 2)] []).pages ↔
      ∃ v, (v, 2) ∈ ([("a", 2)] : List (String × Nat))) :=
  ⟨(claim_C2_pages_sorted_complete.1 [("a", 2), ("b", 1)]).1,
    ((claim_C2_pages_sorted_complete.2 [("a", 2)] [] (by decide)).2.2) 2⟩

/-- C3 counterexample: for the match list `[("ab",1),("x",2)]` the
winning value is `"ab"`, which was never matched on page 2, yet the
resolver returns pages `[1, 2]` — page 2 contributed only the losing
candidate `"x"`, contradicting the claim that `pages` holds only the
winning candidate's pages. -/
theorem claim_C3_counterexample :
    (first_or_na [("ab", 1), ("x", 2)]).value = "ab" ∧
    (first_or_na [("ab", 1), ("x", 2)]).pages = [1, 2] ∧
    ¬("ab", 2) ∈ ([("ab", 1), ("x", 2)] : List (String × Nat)) := by decide

/-- C3 as amended: for every single-value field with at least one match,
the returned pages are the page numbers of **all** matches — pages that
contributed only losing candidates included — not just the pages of the
winning candidate. -/
theorem claim_C3_amended_pages_all_matches (ms : List (String × Nat)) (h : ms ≠ []) :
    ∀ pg, pg ∈ (first_or_na ms).pages ↔ ∃ v, (v, pg) ∈ ms := by
  rw [first_or_na_pages_eq]
  intro pg
  exact mem_pages_iff

theorem claim_C3_witness :
    ([("a", 3)] : List (String × Nat)) ≠ [] ∧
    (3 ∈ (first_or_na [("a", 3)]).pages ↔ ∃ v, (v, 3) ∈ ([("a", 3)] : List (String × Nat))) :=
  ⟨by decide, claim_C3_amended_pages_all_matches [("a", 3)] (by decide) 3⟩

/-- C4 counterexample: in the spec's scenario the Face Value field does
**not** resolve with pages `[1, 3]`.  On page 3 (`"Rs. 10 face value"`)
the number precedes the words `face value`, and the pattern requires a
number after them, so page 3 yields no match. -/
theorem claim_C4_counterexample :
    extract_face_value ["Face value of \u20b910 per equity share", "", "Rs. 10 face value"] ≠
      { value := "10", pages := [1, 3] } := by decide

/-- C4 as amended: in that scenario the Face Value field resolves to
value `"10"` with pages `[1]` — only page 1 matches the pattern. -/
theorem claim_C4_amended :
    extract_face_value ["Face value of \u20b910 per equity share", "", "Rs. 10 face value"] =
      { value := "10", pages := [1] } := by decide

/-- C5 counterexample: the post-processing pattern requires whitespace
before the trailing punctuation run, so the candidate
`"Acme Industries Limited,"` (comma directly after the name) is **not**
stripped, contradicting the claimed scenario. -/
theorem claim_C5_counterexample :
    company_name_clean { value := "Acme Industries Limited,", pages := [2] } =
      { value := "Acme Industries Limited,", pages := [2] } ∧
    ("Acme Industries Limited," : String) ≠ "Acme Industries Limited" := by decide

/-- C5 as amended: post-processing strips a trailing run of commas,
periods, or hyphens together with the whitespace run immediately before
it — and only when that whitespace run is non-empty.  `t` is the kept
prefix (not itself ending in whitespace), `w` the non-empty whitespace
run, `p` the non-empty punctuation run. -/
theorem claim_C5_amended (t w p : List Char) (hw : w ≠ [])
    (hws : ∀ c ∈ w, pyIsSpace c = true) (hp : p ≠ [])
    (hpp : ∀ c ∈ p, trailPunct c = true)
    (ht : ∀ c, t.getLast? = some c → pyIsSpace c = false)
    (hna : String.mk (t ++ (w ++ p)) ≠ "N/A") (pages : List Nat) :
    company_name_clean { value := String.mk (t ++ (w ++ p)), pages := pages } =
      { value := String.mk t, pages := pages } := by
  unfold company_name_clean
  rw [if_pos hna]
  show ({ value := String.mk (companyNameSub (t ++ (w ++ p))), pages := pages } : FieldResult) = _
  rw [companyNameSub_strip hw hws hp hpp ht]

theorem claim_C5_witness :
    company_name_clean
        { value := String.mk ("Acme Industries Limited".data ++ ([' '] ++ [','])),
          pages := [2] } =
      { value := String.mk "Acme Industries Limited".data, pages := [2] } :=
  claim_C5_amended "Acme Industries Limited".data [' '] [','] (by decide) (by decide)
    (by decide) (by decide) (by decide) (by decide) [2]

/-- C6 counterexample: the Amount Parser does **not** preserve the
range `"120-125"` verbatim; its search regex finds the first number
`"120"` (the optional unit group matches nothing) and returns it. -/
theorem claim_C6_counterexample :
    parse_amount "120-125" = "120" ∧ ("120" : String) ≠ "120-125" := by decide

/-- C6 as amended: on a purely numeric range `a-b` the parser returns
the **first endpoint** `a`, not the range; the cleaned-but-unparsed
string is returned only when the input contains no digit at all
(see the C7 theorem for that branch). -/
theorem claim_C6_amended (a b : List Char) (ha : a ≠ [])
    (had : ∀ c ∈ a, c.isDigit = true) (hbd : ∀ c ∈ b, c.isDigit = true) :
    parse_amount (String.mk (a ++ '-' :: b)) = String.mk a :=
  parse_amount_range ha had hbd

theorem claim_C6_witness :
    parse_amount (String.mk ("120".data ++ '-' :: "125".data)) = String.mk "120".data :=
  claim_C6_amended "120".data "125".data (by decide) (by decide) (by decide)

/-- C7: the Amount Parser is total by construction (it is a Lean
function, so it terminates and never raises); empty input maps to the
sentinel `"N/A"`, and input containing no parseable number (no digit
anywhere) returns the cleaned input — lowercased, currency- and
separator-stripped — unchanged. -/
theorem claim_C7_parser_total :
    parse_amount "" = "N/A" ∧
    ∀ s : String, s ≠ "" → (∀ c ∈ s.data, c.isDigit = false) →
      parse_amount s = String.mk (cleanAmount s.data) :=
  ⟨by decide, fun s hs h => parse_amount_no_digit hs h⟩

theorem claim_C7_witness :
    ("abc" : String) ≠ "" ∧
    parse_amount "abc" = String.mk (cleanAmount ("abc" : String).data) :=
  ⟨by decide, claim_C7_parser_total.2 "abc" (by decide) (by decide)⟩

/-- C8: the text normalizer is a pure, deterministic function (a Lean
function of its argument) and idempotent: applying it twice yields the
same result as applying it once, for every input string. -/
theorem claim_C8_normalizer_idempotent (s : String) :
    normalize_spaces (normalize_spaces s) = normalize_spaces s :=
  normalize_spaces_idem s

/-- C9: for the multi-value Lead Managers field: with a non-empty match
list the value joins the deduplicated raw values, sorted in code-point
lexicographic order, with `", "`, and the pages are the sorted distinct
pages of all matches; the spec's concrete example resolves exactly as
stated; with an empty match list the fallback match list is resolved
(by `first_or_na`), and an empty fallback yields `{value:"N/A",
pages:[]}`. -/
theorem claim_C9_lead_managers :
    (∀ brlm fb : List (String × Nat), brlm ≠ [] →
      ∃ L, (lead_managers_resolve brlm fb).value = String.intercalate ", " L ∧
        L.Pairwise pyStrLe ∧ L.Nodup ∧
        (∀ v, v ∈ L ↔ ∃ pg, (v, pg) ∈ brlm) ∧
        List.Sorted (· < ·) (lead_managers_resolve brlm fb).pages ∧
        (∀ pg, pg ∈ (lead_managers_resolve brlm fb).pages ↔ ∃ v, (v, pg) ∈ brlm)) ∧
    lead_managers_resolve [("X Ltd", 1), ("X Ltd", 2), ("Y Ltd", 3)] [] =
      { value := "X Ltd, Y Ltd", pages := [1, 2, 3] } ∧
    (∀ fb, lead_managers_resolve [] fb = first_or_na fb) ∧
    lead_managers_resolve [] [] = { value := "N/A", pages := [] } := by
  refine ⟨?_, by decide, fun fb => rfl, by decide⟩
  intro brlm fb h
  cases brlm with
  | nil => exact absurd rfl h
  | cons vp rest =>
    refine ⟨sortedDedupStr (((vp :: rest)).map Prod.fst), rfl,
      sortedDedupStr_pairwise _, sortedDedupStr_nodup _, ?_, ?_, ?_⟩
    · intro v
      rw [mem_sortedDedupStr]
      exact mem_values_iff
    · have hpg : (lead_managers_resolve (vp :: rest) fb).pages =
          sortedDedupNat (((vp :: rest)).map Prod.snd) := rfl
      rw [hpg]
      exact sortedDedupNat_sorted _
    · intro pg
      have hpg : (lead_managers_resolve (vp :: rest) fb).pages =
          sortedDedupNat (((vp :: rest)).map Prod.snd) := rfl
      rw [hpg]
      exact mem_pages_iff

theorem claim_C9_witness :
    ∃ L, (lead_managers_resolve [("B", 2), ("A", 1)] []).value =
        String.intercalate ", " L ∧
      L.Pairwise pyStrLe ∧ L.Nodup ∧
      (∀ v, v ∈ L ↔ ∃ pg, (v, pg) ∈ ([("B", 2), ("A", 1)] : List (String × Nat))) ∧
      List.Sorted (· < ·) (lead_managers_resolve [("B", 2), ("A", 1)] []).pages ∧
      (∀ pg, pg ∈ (lead_managers_resolve [("B", 2), ("A", 1)] []).pages ↔
        ∃ v, (v, pg) ∈ ([("B", 2), ("A", 1)] : List (String × Nat))) :=
  claim_C9_lead_managers.1 [("B", 2), ("A", 1)] [] (by decide)

theorem clean_numeric_value {r : FieldResult} (h : r.value ≠ "N/A") :
    (clean_numeric r).value = parse_amount r.value := by
  unfold clean_numeric
  rw [if_pos h]

/-- C10: the issue-price pattern makes every keyword optional, so any
digit sequence anywhere is a candidate.  For every document with at
least one digit on some page, the match list is non-empty, the
resolver's value is one of the captured values and the longest of
them, it is never `"N/A"`, and the fully post-processed Issue Price
field value is never `"N/A"` either. -/
theorem claim_C10_issue_price (pages : List String)
    (h : ∃ t ∈ pages, ∃ c ∈ t.data, c.isDigit = true) :
    find_all issuePriceRE pages ≠ [] ∧
    (first_or_na (find_all issuePriceRE pages)).value ∈
      (find_all issuePriceRE pages).map Prod.fst ∧
    (∀ vp ∈ find_all issuePriceRE pages,
      vp.1.length ≤ (first_or_na (find_all issuePriceRE pages)).value.length) ∧
    (first_or_na (find_all issuePriceRE pages)).value ≠ "N/A" ∧
    (extract_issue_price pages).value ≠ "N/A" := by
  have hne := find_all_issue_ne_nil h
  have hmem := first_or_na_value_mem hne
  have hdig : ∃ d ∈ (first_or_na (find_all issuePriceRE pages)).value.data,
      d.isDigit = true := by
    rw [List.mem_map] at hmem
    obtain ⟨vp, hvp, he⟩ := hmem
    rw [← he]
    exact find_all_issue_value_digit hvp
  have hval_ne : (first_or_na (find_all issuePriceRE pages)).value ≠ "N/A" :=
    ne_na_of_digit hdig
  refine ⟨hne, first_or_na_value_mem hne, ?_, hval_ne, ?_⟩
  · intro vp hvp
    exact first_or_na_value_longest hne vp.1 (List.mem_map.mpr ⟨vp, hvp, rfl⟩)
  · have hgen : ∀ r : FieldResult, r.value ≠ "N/A" →
        (∃ d ∈ r.value.data, d.isDigit = true) → (clean_numeric r).value ≠ "N/A" := by
      intro r hr hd
      rw [clean_numeric_value hr]
      exact parse_amount_digit_ne_na hd
    exact hgen _ hval_ne hdig

theorem claim_C10_witness :
    find_all issuePriceRE ["x 12"] ≠ [] ∧
    (extract_issue_price ["x 12"]).value ≠ "N/A" := by
  have h := claim_C10_issue_price ["x 12"] (by decide)
  exact ⟨h.1, h.2.2.2.2⟩

end IpoExtract
